import Mathlib

/-!
Verification of supplyscan-mcp (Go) against its natural-language
specification.  The Go code is shallowly embedded: Go strings become
`List Char` (written `Str`), Go maps become association lists, Go slices
become `List`, fallible functions return `Except`/`Option`, and wall-clock
timestamps are passed in as an explicit parameter.  Every definition
follows the corresponding Go function; definitions marked `spec` model the
specification's wording for comparison against the code.
-/

set_option maxHeartbeats 1000000

namespace SupplyScan

/-- Go strings, modelled byte-for-byte as lists of characters. -/
abbrev Str := List Char

/-- `types.Dependency` (internal/types/types.go). -/
structure Dependency where
  Name : Str
  Version : Str
  Dev : Bool := false
  Optional : Bool := false
  deriving Repr, DecidableEq

/-- `types.CompromisedPackage` (internal/types/types.go). -/
structure CompromisedPackage where
  Name : Str
  Versions : List Str
  Sources : List Str
  Campaigns : List Str
  AdvisoryIDs : List Str
  FirstSeen : Str
  deriving Repr, DecidableEq

/-- `types.SourcePackage` (internal/types/types.go). -/
structure SourcePackage where
  Name : Str := []
  Versions : List Str
  AdvisoryID : Str := []
  Severity : Str := []
  deriving Repr, DecidableEq

/-- `types.SourceData` (internal/types/types.go): the Go map
`Packages map[string]SourcePackage` is an association list. -/
structure SourceData where
  Source : Str
  Campaign : Str
  Packages : List (Str × SourcePackage)
  FetchedAt : Str := []
  deriving Repr, DecidableEq

/-- `types.IOCDatabase` (internal/types/types.go): the Go map
`Packages map[string]CompromisedPackage` is an association list. -/
structure IOCDatabase where
  Packages : List (Str × CompromisedPackage)
  LastUpdated : Str
  Sources : List Str
  deriving Repr, DecidableEq

/-- `types.SupplyChainFinding` (internal/types/types.go). -/
structure SupplyChainFinding where
  Severity : Str
  Type' : Str
  Package : Str
  InstalledVersion : Str
  CompromisedVersions : List Str
  Action : Str
  Campaigns : List Str
  AdvisoryIDs : List Str
  Sources : List Str
  deriving Repr, DecidableEq

/-- `types.SupplyChainWarning` (internal/types/types.go). -/
structure SupplyChainWarning where
  Type' : Str
  Package : Str
  InstalledVersion : Str
  Note : Str
  deriving Repr, DecidableEq

/-- Association-list lookup, modelling Go map indexing `m[k]`. -/
def assocFind (k : Str) : List (Str × α) → Option α
  | [] => none
  | (k', v) :: rest => if k' = k then some v else assocFind k rest

/-- Association-list update, modelling Go map assignment `m[k] = v`
for a key already present. -/
def assocSet (k : Str) (v : α) : List (Str × α) → List (Str × α)
  | [] => []
  | (k', v') :: rest => if k' = k then (k, v) :: rest else (k', v') :: assocSet k v rest

/-- `atRiskNamespaces` (internal/supplychain/namespaces.go). -/
def atRiskNamespaces : List Str :=
  ["@ctrl".toList, "@nativescript-community".toList, "@crowdstrike".toList,
   "@asyncapi".toList, "@posthog".toList, "@postman".toList,
   "@ensdomains".toList, "@zapier".toList, "@art-ws".toList, "@ngx".toList]

/-- `strings.HasPrefix(s, pat)`: `hasPref pat s`. -/
def hasPref : Str → Str → Bool
  | [], _ => true
  | _ :: _, [] => false
  | p :: ps, c :: cs => p = c && hasPref ps cs

/-- `isAtRiskNamespace` (internal/supplychain/namespaces.go): the name must
begin with `@` and contain a `/` (`strings.Index` returning `-1` means no
slash); the scope is the text before the first `/`. -/
def isAtRiskNamespace (packageName : Str) : Bool :=
  if ¬ hasPref "@".toList packageName then false
  else if ¬ packageName.contains '/' then false
  else atRiskNamespaces.contains (packageName.takeWhile (· ≠ '/'))

/-- `getNamespaceWarning` (internal/supplychain/namespaces.go). -/
def getNamespaceWarning (packageName : Str) : Str :=
  "Namespace '".toList ++ packageName ++
    "' had compromised packages in Shai-Hulud campaign. This version appears safe but verify.".toList

/-- `Detector.CheckPackage` (internal/supplychain/shaihulud.go, multi-source
version): `db` is the aggregator's current database (`nil` as `none`). -/
def CheckPackage (db : Option IOCDatabase) (name version : Str) : Option SupplyChainFinding :=
  match db with
  | none => none
  | some db =>
    match assocFind name db.Packages with
    | none => none
    | some pkg =>
      if pkg.Versions.contains version then
        let findingType :=
          match pkg.Campaigns with
          | [] => "supply_chain_compromise".toList
          | c :: _ => c
        some { Severity := "critical".toList
               Type' := findingType
               Package := name
               InstalledVersion := version
               CompromisedVersions := pkg.Versions
               Action := "Update immediately and rotate any exposed credentials".toList
               Campaigns := pkg.Campaigns
               AdvisoryIDs := pkg.AdvisoryIDs
               Sources := pkg.Sources }
      else none

/-- `Detector.checkNamespace` (internal/supplychain/shaihulud.go,
multi-source version). -/
def checkNamespace (db : Option IOCDatabase) (name version : Str) : Option SupplyChainWarning :=
  if ¬ isAtRiskNamespace name then none
  else
    let alreadyFinding :=
      match db with
      | none => false
      | some db =>
        match assocFind name db.Packages with
        | none => false
        | some pkg => pkg.Versions.contains version
    if alreadyFinding then none
    else some { Type' := "namespace_at_risk".toList
                Package := name
                InstalledVersion := version
                Note := getNamespaceWarning name }

/-- `Detector.CheckDependencies` (internal/supplychain/shaihulud.go,
multi-source version): findings first, `continue` skips the namespace
check when a finding was emitted. -/
def CheckDependencies (db : Option IOCDatabase) :
    List Dependency → List SupplyChainFinding × List SupplyChainWarning
  | [] => ([], [])
  | dep :: rest =>
    let (fs, ws) := CheckDependencies db rest
    match CheckPackage db dep.Name dep.Version with
    | some finding => (finding :: fs, ws)
    | none =>
      match checkNamespace db dep.Name dep.Version with
      | some warning => (fs, warning :: ws)
      | none => (fs, ws)

/-! ### Detector lemmas -/

/-- The findings of `CheckDependencies` are exactly the successful
`CheckPackage` results, one per dependency, in order. -/
lemma checkDependencies_fst (db : Option IOCDatabase) (deps : List Dependency) :
    (CheckDependencies db deps).1 =
      deps.filterMap (fun d => CheckPackage db d.Name d.Version) := by
  induction deps with
  | nil => rfl
  | cons dep rest ih =>
    show (let (fs, ws) := CheckDependencies db rest; _ : _ × _).1 = _
    cases hc : CheckPackage db dep.Name dep.Version with
    | some f =>
      simp only [CheckDependencies, hc, List.filterMap_cons, ← ih]
    | none =>
      cases hw : checkNamespace db dep.Name dep.Version <;>
        simp only [CheckDependencies, hc, hw, List.filterMap_cons, ← ih]

/-- Every emitted warning comes from some dependency in the list whose
`CheckPackage` was `none`. -/
lemma mem_warnings (db : Option IOCDatabase) (deps : List Dependency) (w : SupplyChainWarning)
    (hw : w ∈ (CheckDependencies db deps).2) :
    ∃ d ∈ deps, CheckPackage db d.Name d.Version = none ∧
      checkNamespace db d.Name d.Version = some w := by
  induction deps with
  | nil => simp [CheckDependencies] at hw
  | cons dep rest ih =>
    cases hc : CheckPackage db dep.Name dep.Version with
    | some f =>
      simp only [CheckDependencies, hc] at hw
      obtain ⟨d, hd, h⟩ := ih hw
      exact ⟨d, List.mem_cons_of_mem _ hd, h⟩
    | none =>
      cases hn : checkNamespace db dep.Name dep.Version with
      | some w' =>
        simp only [CheckDependencies, hc, hn, List.mem_cons] at hw
        rcases hw with h | h
        · exact ⟨dep, List.mem_cons_self _ _, hc, h ▸ hn⟩
        · obtain ⟨d, hd, hh⟩ := ih h
          exact ⟨d, List.mem_cons_of_mem _ hd, hh⟩
      | none =>
        simp only [CheckDependencies, hc, hn] at hw
        obtain ⟨d, hd, h⟩ := ih hw
        exact ⟨d, List.mem_cons_of_mem _ hd, h⟩

/-- Shape of a successful `checkNamespace`. -/
lemma checkNamespace_some (db : Option IOCDatabase) (name version : Str)
    (w : SupplyChainWarning) (h : checkNamespace db name version = some w) :
    isAtRiskNamespace name = true ∧
      w = { Type' := "namespace_at_risk".toList, Package := name,
            InstalledVersion := version, Note := getNamespaceWarning name } := by
  unfold checkNamespace at h
  by_cases hr : isAtRiskNamespace name
  · refine ⟨hr, ?_⟩
    simp only [hr, not_true, if_false] at h
    split at h
    · exact absurd h (by simp)
    · exact (Option.some_injective _ h).symm
  · simp [hr] at h

/-- Unfolding of `isAtRiskNamespace`: the name begins with `@`, contains a
`/`, and its scope (text before the first `/`) is in the closed set. -/
lemma isAtRiskNamespace_iff (n : Str) :
    isAtRiskNamespace n = true ↔
      hasPref "@".toList n = true ∧ '/' ∈ n ∧
        n.takeWhile (· ≠ '/') ∈ atRiskNamespaces := by
  unfold isAtRiskNamespace
  split_ifs with h1 h2
  · constructor
    · intro h; exact ⟨h1, List.elem_iff.mp h2, List.elem_iff.mp h⟩
    · rintro ⟨-, -, h⟩; exact List.elem_iff.mpr h
  · constructor
    · intro h; exact absurd h (by simp)
    · rintro ⟨-, hs, -⟩; exact h2 (List.elem_iff.mpr hs)
  · constructor
    · intro h; exact absurd h (by simp)
    · rintro ⟨hp, -, -⟩; exact absurd hp h1

/-- Example database used by witnesses: one compromised package. -/
def exPkg : CompromisedPackage :=
  { Name := "@ctrl/tinycolor".toList
    Versions := ["3.4.1".toList]
    Sources := ["datadog".toList]
    Campaigns := ["shai-hulud-v2".toList]
    AdvisoryIDs := []
    FirstSeen := [] }

/-- Example database used by witnesses. -/
def exDb : IOCDatabase :=
  { Packages := [("@ctrl/tinycolor".toList, exPkg)]
    LastUpdated := []
    Sources := ["datadog".toList] }

/-- C1: for a dependency whose name is a key of the IOC index, the detector
emits exactly one Finding iff the dependency's version is in the indexed
version list; the Finding has severity `critical` and its type is the first
campaign when the campaign list is non-empty, else `supply_chain_compromise`.
(`CheckDependencies` emits exactly the successful `CheckPackage` results,
one per dependency.) -/
theorem claim_C1_detector_finding (db : IOCDatabase) (name version : Str)
    (pkg : CompromisedPackage) (hpkg : assocFind name db.Packages = some pkg) :
    ((∃ f, CheckPackage (some db) name version = some f) ↔ version ∈ pkg.Versions)
    ∧ (∀ f, CheckPackage (some db) name version = some f →
        f.Severity = "critical".toList ∧
        f.Type' = (match pkg.Campaigns with
                   | [] => "supply_chain_compromise".toList
                   | c :: _ => c) ∧
        f.Package = name ∧ f.InstalledVersion = version)
    ∧ (∀ deps : List Dependency, (CheckDependencies (some db) deps).1 =
        deps.filterMap (fun d => CheckPackage (some db) d.Name d.Version)) := by
  refine ⟨?_, ?_, fun deps => checkDependencies_fst _ deps⟩
  · unfold CheckPackage
    simp only [hpkg]
    by_cases h : pkg.Versions.contains version = true
    · simp only [h, if_true]
      exact ⟨fun _ => List.elem_iff.mp h, fun _ => ⟨_, rfl⟩⟩
    · simp only [h, if_false]
      constructor
      · rintro ⟨f, hf⟩; cases hf
      · intro hv; exact absurd (List.elem_iff.mpr hv) h
  · intro f hf
    unfold CheckPackage at hf
    simp only [hpkg] at hf
    split at hf
    · cases hf; exact ⟨rfl, rfl, rfl, rfl⟩
    · cases hf

/-- Witness for C1 at a concrete index and dependency. -/
theorem claim_C1_detector_finding_witness :
    ((∃ f, CheckPackage (some exDb) "@ctrl/tinycolor".toList "3.4.1".toList = some f) ↔
        "3.4.1".toList ∈ exPkg.Versions)
    ∧ (∀ f, CheckPackage (some exDb) "@ctrl/tinycolor".toList "3.4.1".toList = some f →
        f.Severity = "critical".toList ∧
        f.Type' = (match exPkg.Campaigns with
                   | [] => "supply_chain_compromise".toList
                   | c :: _ => c) ∧
        f.Package = "@ctrl/tinycolor".toList ∧ f.InstalledVersion = "3.4.1".toList)
    ∧ (∀ deps : List Dependency, (CheckDependencies (some exDb) deps).1 =
        deps.filterMap (fun d => CheckPackage (some exDb) d.Name d.Version)) :=
  claim_C1_detector_finding exDb "@ctrl/tinycolor".toList "3.4.1".toList exPkg (by rfl)

/-- C5: a dependency for which a Finding is emitted never also gets a
Warning, and every emitted Warning is a `namespace_at_risk` warning whose
package scope (text before the first `/` of a name beginning with `@`) is
in the closed at-risk namespace set. -/
theorem claim_C5_findings_subsume_warnings (db : Option IOCDatabase)
    (deps : List Dependency) (w : SupplyChainWarning)
    (hw : w ∈ (CheckDependencies db deps).2) :
    (∀ dep : Dependency, (CheckPackage db dep.Name dep.Version).isSome →
        ¬(w.Package = dep.Name ∧ w.InstalledVersion = dep.Version))
    ∧ w.Type' = "namespace_at_risk".toList
    ∧ hasPref "@".toList w.Package = true ∧ '/' ∈ w.Package
    ∧ w.Package.takeWhile (· ≠ '/') ∈ atRiskNamespaces := by
  obtain ⟨d, _, hnone, hsome⟩ := mem_warnings db deps w hw
  obtain ⟨hrisk, hweq⟩ := checkNamespace_some db d.Name d.Version w hsome
  obtain ⟨hpre, hslash, hscope⟩ := (isAtRiskNamespace_iff d.Name).mp hrisk
  subst hweq
  refine ⟨?_, rfl, hpre, hslash, hscope⟩
  intro dep hf ⟨hp, hv⟩
  simp only at hp hv
  rw [← hp, ← hv] at hf
  rw [hnone] at hf
  cases hf

/-- Witness for C5: a clean version from an at-risk namespace yields a
warning in a concrete scan. -/
theorem claim_C5_findings_subsume_warnings_witness :
    (∀ dep : Dependency,
        (CheckPackage (some exDb) dep.Name dep.Version).isSome →
        ¬(({ Type' := "namespace_at_risk".toList,
             Package := "@ctrl/tinycolor".toList,
             InstalledVersion := "3.0.0".toList,
             Note := getNamespaceWarning "@ctrl/tinycolor".toList } :
              SupplyChainWarning).Package = dep.Name ∧
          ({ Type' := "namespace_at_risk".toList,
             Package := "@ctrl/tinycolor".toList,
             InstalledVersion := "3.0.0".toList,
             Note := getNamespaceWarning "@ctrl/tinycolor".toList } :
              SupplyChainWarning).InstalledVersion = dep.Version))
    ∧ ({ Type' := "namespace_at_risk".toList,
         Package := "@ctrl/tinycolor".toList,
         InstalledVersion := "3.0.0".toList,
         Note := getNamespaceWarning "@ctrl/tinycolor".toList } :
          SupplyChainWarning).Type' = "namespace_at_risk".toList
    ∧ hasPref "@".toList "@ctrl/tinycolor".toList = true
    ∧ '/' ∈ "@ctrl/tinycolor".toList
    ∧ "@ctrl/tinycolor".toList.takeWhile (· ≠ '/') ∈ atRiskNamespaces := by
  have h := claim_C5_findings_subsume_warnings (some exDb)
    [{ Name := "@ctrl/tinycolor".toList, Version := "3.0.0".toList }]
    { Type' := "namespace_at_risk".toList,
      Package := "@ctrl/tinycolor".toList,
      InstalledVersion := "3.0.0".toList,
      Note := getNamespaceWarning "@ctrl/tinycolor".toList }
    (by decide)
  exact ⟨h.1, h.2.1, h.2.2.1, h.2.2.2.1, h.2.2.2.2⟩

/-! ### Aggregator (src/unnamed/part_002, package supplychain) -/

/-- `uniqueStrings` (aggregator file): deduplicates, dropping empty strings,
with a `seen` map.  `uniqueStringsGo l seen` is the loop with `seen` holding
the strings already emitted. -/
def uniqueStringsGo : List Str → List Str → List Str
  | [], _ => []
  | s :: rest, seen =>
    if s ≠ [] ∧ ¬ seen.contains s then s :: uniqueStringsGo rest (s :: seen)
    else uniqueStringsGo rest seen

/-- `uniqueStrings` (aggregator file). -/
def uniqueStrings (input : List Str) : List Str := uniqueStringsGo input []

/-- The `sourceSet` map of `mergeSourceData`: first-occurrence
deduplication of source names (no empty-string filtering there). -/
def dedupStrsGo : List Str → List Str → List Str
  | [], _ => []
  | s :: rest, seen =>
    if ¬ seen.contains s then s :: dedupStrsGo rest (s :: seen)
    else dedupStrsGo rest seen

/-- First-occurrence deduplication (the `sourceSet` map made into a list). -/
def dedupStrs (l : List Str) : List Str := dedupStrsGo l []

/-- `mergeExistingPackage` (aggregator file): `now` stands for
`time.Now().UTC().Format(time.RFC3339)`. -/
def mergeExistingPackage (existing : CompromisedPackage) (src : SourceData)
    (pkg : SourcePackage) (now : Str) : CompromisedPackage :=
  { existing with
    Versions := uniqueStrings (existing.Versions ++ pkg.Versions)
    Sources := uniqueStrings (existing.Sources ++ [src.Source])
    Campaigns := if src.Campaign ≠ [] then
        uniqueStrings (existing.Campaigns ++ [src.Campaign]) else existing.Campaigns
    AdvisoryIDs := if pkg.AdvisoryID ≠ [] then
        uniqueStrings (existing.AdvisoryIDs ++ [pkg.AdvisoryID]) else existing.AdvisoryIDs
    FirstSeen := if existing.FirstSeen = [] then now else existing.FirstSeen }

/-- `createNewPackage` (aggregator file). -/
def createNewPackage (name : Str) (src : SourceData) (pkg : SourcePackage)
    (now : Str) : CompromisedPackage :=
  { Name := name
    Versions := pkg.Versions
    Sources := [src.Source]
    Campaigns := if src.Campaign ≠ [] then [src.Campaign] else []
    AdvisoryIDs := if pkg.AdvisoryID ≠ [] then [pkg.AdvisoryID] else []
    FirstSeen := now }

/-- Loop body of `mergeSourceIntoPackages` (aggregator file): merge one
`(name, pkg)` entry of a source into the packages map. -/
def mergeStep (src : SourceData) (now : Str) (m : List (Str × CompromisedPackage))
    (entry : Str × SourcePackage) : List (Str × CompromisedPackage) :=
  match assocFind entry.1 m with
  | some existing => assocSet entry.1 (mergeExistingPackage existing src entry.2 now) m
  | none => m ++ [(entry.1, createNewPackage entry.1 src entry.2 now)]

/-- `mergeSourceIntoPackages` (aggregator file): fold one source's package
map into the accumulated packages map. -/
def mergeSourceIntoPackages (packages : List (Str × CompromisedPackage))
    (src : SourceData) (now : Str) : List (Str × CompromisedPackage) :=
  src.Packages.foldl (mergeStep src now) packages

/-- `mergeSourceData` (aggregator file): merge a list of source records
into a unified database.  `now` stands for the merge wall-clock time. -/
def mergeSourceData (sources : List SourceData) (now : Str) : IOCDatabase :=
  { Packages := sources.foldl (fun m s => mergeSourceIntoPackages m s now) []
    LastUpdated := now
    Sources := dedupStrs (sources.map (·.Source)) }

/-- Per-source outcome of one `fetchAll` task: either a source record
(from the per-source cache or a live fetch) or the recorded error. -/
abbrev FetchOutcome := Str × Except Str SourceData

/-- `fetchAll` (aggregator file): collects successful records as `results`
and failures in the `errors` map; no outcome aborts the others. -/
def fetchAll (outcomes : List FetchOutcome) :
    List SourceData × List (Str × Str) :=
  (outcomes.filterMap (fun o => match o.2 with | .ok d => some d | .error _ => none),
   outcomes.filterMap (fun o => match o.2 with | .ok _ => none | .error e => some (o.1, e)))

/-- `ensureLoaded` (aggregator file).  State that matters: the in-memory
database `db0`, the on-disk merged cache `mergedCache` (`loadMerged`:
`none` models both absence and a read error), the `allSourcesFresh`
check (a boolean: freshness of every per-source cache), and the
`fetchAll` outcomes.  Returns the new in-memory database and the Go
`error` return value. -/
def ensureLoaded (db0 mergedCache : Option IOCDatabase) (fresh : Bool)
    (outcomes : List FetchOutcome) (now : Str) :
    Option IOCDatabase × Option Str :=
  if db0.isSome ∧ fresh then (db0, none)
  else if mergedCache.isSome ∧ fresh then (mergedCache, none)
  else
    let sourceData := (fetchAll outcomes).1
    if sourceData = [] then
      (if mergedCache.isSome then mergedCache else db0, none)
    else
      (some (mergeSourceData sourceData now), none)

/-! ### Aggregator lemmas -/

lemma mem_uniqueStringsGo (s : Str) :
    ∀ (l seen : List Str), s ∈ uniqueStringsGo l seen ↔ s ∈ l ∧ s ≠ [] ∧ s ∉ seen := by
  intro l
  induction l with
  | nil => intro seen; simp [uniqueStringsGo]
  | cons t rest ih =>
    intro seen
    by_cases ht : t ≠ [] ∧ ¬ seen.contains t
    · have h1 : t ≠ [] := ht.1
      have h2 : t ∉ seen := fun hs => ht.2 (List.elem_iff.mpr hs)
      rw [uniqueStringsGo, if_pos ht]
      simp only [List.mem_cons, ih, not_or]
      constructor
      · rintro (rfl | ⟨hr, hne, hnt, hns⟩)
        · exact ⟨Or.inl rfl, h1, h2⟩
        · exact ⟨Or.inr hr, hne, hns⟩
      · rintro ⟨rfl | hr, hne, hns⟩
        · exact Or.inl rfl
        · by_cases hst : s = t
          · exact Or.inl hst
          · exact Or.inr ⟨hr, hne, hst, hns⟩
    · have hd : t = [] ∨ t ∈ seen := by
        rcases not_and_or.mp ht with h | h
        · exact Or.inl (not_not.mp h)
        · exact Or.inr (List.elem_iff.mp (not_not.mp h))
      rw [uniqueStringsGo, if_neg ht]
      simp only [List.mem_cons, ih]
      constructor
      · rintro ⟨hr, hne, hns⟩; exact ⟨Or.inr hr, hne, hns⟩
      · rintro ⟨rfl | hr, hne, hns⟩
        · rcases hd with h | h
          · exact absurd h hne
          · exact absurd h hns
        · exact ⟨hr, hne, hns⟩

/-- Membership in `uniqueStrings`: same elements minus empty strings. -/
lemma mem_uniqueStrings (s : Str) (l : List Str) :
    s ∈ uniqueStrings l ↔ s ∈ l ∧ s ≠ [] := by
  rw [uniqueStrings, mem_uniqueStringsGo]
  simp

lemma mem_dedupStrsGo (s : Str) :
    ∀ (l seen : List Str), s ∈ dedupStrsGo l seen ↔ s ∈ l ∧ s ∉ seen := by
  intro l
  induction l with
  | nil => intro seen; simp [dedupStrsGo]
  | cons t rest ih =>
    intro seen
    by_cases ht : ¬ seen.contains t
    · have h2 : t ∉ seen := fun hs => ht (List.elem_iff.mpr hs)
      rw [dedupStrsGo, if_pos ht]
      simp only [List.mem_cons, ih, not_or]
      constructor
      · rintro (rfl | ⟨hr, hnt, hns⟩)
        · exact ⟨Or.inl rfl, h2⟩
        · exact ⟨Or.inr hr, hns⟩
      · rintro ⟨rfl | hr, hns⟩
        · exact Or.inl rfl
        · by_cases hst : s = t
          · exact Or.inl hst
          · exact Or.inr ⟨hr, hst, hns⟩
    · rw [not_not] at ht
      rw [dedupStrsGo, if_neg (by simpa using ht)]
      simp only [List.mem_cons, ih]
      constructor
      · rintro ⟨hr, hns⟩; exact ⟨Or.inr hr, hns⟩
      · rintro ⟨rfl | hr, hns⟩
        · exact absurd (List.elem_iff.mp ht) hns
        · exact ⟨hr, hns⟩

/-- Membership in `dedupStrs`: exactly the original elements. -/
lemma mem_dedupStrs (s : Str) (l : List Str) : s ∈ dedupStrs l ↔ s ∈ l := by
  rw [dedupStrs, mem_dedupStrsGo]
  simp

lemma assocFind_append (k : Str) (m1 m2 : List (Str × α)) :
    assocFind k (m1 ++ m2) =
      match assocFind k m1 with
      | some v => some v
      | none => assocFind k m2 := by
  induction m1 with
  | nil => simp [assocFind]
  | cons e rest ih =>
    obtain ⟨k', v⟩ := e
    by_cases h : k' = k <;> simp [assocFind, h, ih]

lemma assocFind_assocSet_self (k : Str) (v : α) (m : List (Str × α)) :
    assocFind k (assocSet k v m) =
      match assocFind k m with
      | some _ => some v
      | none => none := by
  induction m with
  | nil => simp [assocFind, assocSet]
  | cons e rest ih =>
    obtain ⟨k', v'⟩ := e
    by_cases h : k' = k <;> simp [assocFind, assocSet, h, ih]

lemma assocFind_assocSet_ne (k k' : Str) (v : α) (m : List (Str × α)) (h : k' ≠ k) :
    assocFind k' (assocSet k v m) = assocFind k' m := by
  induction m with
  | nil => simp [assocSet]
  | cons e rest ih =>
    obtain ⟨k'', v'⟩ := e
    by_cases h2 : k'' = k
    · subst h2
      simp [assocFind, assocSet, Ne.symm h, ih]
    · by_cases h3 : k'' = k' <;> simp [assocFind, assocSet, h2, h3, h, ih]

lemma assocFind_eq_none_of_not_mem (k : Str) (m : List (Str × α))
    (h : k ∉ m.map Prod.fst) : assocFind k m = none := by
  induction m with
  | nil => rfl
  | cons e rest ih =>
    obtain ⟨k', v⟩ := e
    simp only [List.map_cons, List.mem_cons] at h
    push_neg at h
    simp only [assocFind, if_neg (Ne.symm h.1), ih h.2]

/-- `mergeStep` at the entry's own key. -/
lemma assocFind_mergeStep_self (src : SourceData) (now : Str) (k : Str)
    (p : SourcePackage) (m : List (Str × CompromisedPackage)) :
    assocFind k (mergeStep src now m (k, p)) =
      match assocFind k m with
      | none => some (createNewPackage k src p now)
      | some ex => some (mergeExistingPackage ex src p now) := by
  unfold mergeStep
  cases hm : assocFind k m with
  | some ex => simp [assocFind_assocSet_self, hm]
  | none => simp [assocFind_append, hm, assocFind]

/-- `mergeStep` at any other key. -/
lemma assocFind_mergeStep_ne (src : SourceData) (now : Str) (k n : Str)
    (p : SourcePackage) (m : List (Str × CompromisedPackage)) (hnk : k ≠ n) :
    assocFind n (mergeStep src now m (k, p)) = assocFind n m := by
  unfold mergeStep
  cases hm : assocFind k m with
  | some ex => exact assocFind_assocSet_ne k n _ m (Ne.symm hnk)
  | none =>
    rw [assocFind_append]
    cases hnm : assocFind n m with
    | some x => simp [hnm]
    | none => simp [hnm, assocFind, hnk]

/-- Lookup after folding one source into the packages map (keys of a Go map
are distinct). -/
lemma assocFind_mergeSourceIntoPackages (src : SourceData) (now : Str) (n : Str) :
    ∀ (ps : List (Str × SourcePackage)) (m : List (Str × CompromisedPackage)),
      (ps.map Prod.fst).Nodup →
      assocFind n (ps.foldl (mergeStep src now) m) =
      match assocFind n ps with
      | none => assocFind n m
      | some pkg =>
        match assocFind n m with
        | none => some (createNewPackage n src pkg now)
        | some ex => some (mergeExistingPackage ex src pkg now) := by
  intro ps
  induction ps with
  | nil => intro m _; simp [assocFind]
  | cons e rest ih =>
    intro m hnodup
    obtain ⟨k, p⟩ := e
    simp only [List.map_cons, List.nodup_cons] at hnodup
    obtain ⟨hk, hrest⟩ := hnodup
    simp only [List.foldl_cons]
    rw [ih _ hrest]
    by_cases hnk : k = n
    · subst hnk
      rw [assocFind_eq_none_of_not_mem k rest hk]
      rw [assocFind_mergeStep_self]
      simp [assocFind]
    · simp only [assocFind, if_neg hnk]
      rw [assocFind_mergeStep_ne src now k n p m hnk]

/-- The empty IOC index. -/
def emptyDb (now : Str) : IOCDatabase :=
  { Packages := [], LastUpdated := now, Sources := [] }

/-- C4: `ensureLoaded` never returns an error (first conjunct, for every
state and every combination of per-source outcomes); when the caches are
not all fresh, the index is replaced by the merge of the returned records
if at least one source returned data; if every source failed but a merged
cache exists, the cache is kept; and with no data at all the operation
still succeeds and the detector behaves as with an empty index. -/
theorem claim_C4_ensureLoaded_never_fails (db0 mergedCache : Option IOCDatabase)
    (fresh : Bool) (outcomes : List FetchOutcome) (now : Str) :
    (ensureLoaded db0 mergedCache fresh outcomes now).2 = none
    ∧ (fresh = false → (fetchAll outcomes).1 ≠ [] →
        (ensureLoaded db0 mergedCache fresh outcomes now).1 =
          some (mergeSourceData (fetchAll outcomes).1 now))
    ∧ (fresh = false → (fetchAll outcomes).1 = [] →
        mergedCache.isSome →
        (ensureLoaded db0 mergedCache fresh outcomes now).1 = mergedCache)
    ∧ (db0 = none → mergedCache = none → (fetchAll outcomes).1 = [] →
        (ensureLoaded db0 mergedCache fresh outcomes now).1 = none ∧
        ∀ name version,
          CheckPackage (ensureLoaded db0 mergedCache fresh outcomes now).1 name version =
            CheckPackage (some (emptyDb now)) name version) := by
  refine ⟨?_, ?_, ?_, ?_⟩
  · unfold ensureLoaded
    by_cases h1 : db0.isSome = true ∧ fresh = true
    · rw [if_pos h1]
    · by_cases h2 : mergedCache.isSome = true ∧ fresh = true
      · rw [if_neg h1, if_pos h2]
      · by_cases h3 : (fetchAll outcomes).1 = [] <;> simp [h1, h2, h3]
  · rintro rfl hne
    unfold ensureLoaded
    simp [hne]
  · rintro rfl hf hc
    unfold ensureLoaded
    simp [hf, hc]
  · rintro rfl rfl hf
    unfold ensureLoaded
    simp only [hf, Option.isSome_none, Bool.false_eq_true, false_and, if_false, if_pos rfl]
    exact ⟨rfl, fun name version => rfl⟩

/-- Example source record used by witnesses. -/
def exSrcA : SourceData :=
  { Source := "datadog".toList
    Campaign := "shai-hulud-v2".toList
    Packages := [("@ctrl/tinycolor".toList,
      { Versions := ["3.4.1".toList], AdvisoryID := [] })]
    FetchedAt := [] }

/-- Failing outcomes used by the C4 witness. -/
def exFailOutcomes : List FetchOutcome :=
  [("datadog".toList, Except.error "network error".toList),
   ("github".toList, Except.error "rate limited".toList)]

/-- Mixed outcomes used by the C4 witness: one source returned data. -/
def exOkOutcomes : List FetchOutcome :=
  [("datadog".toList, Except.ok exSrcA),
   ("github".toList, Except.error "rate limited".toList)]

/-- Witness for C4 at concrete outcome combinations: no error in any of
the three regimes, merge on partial success, cache kept on total failure,
empty-index behaviour with no data at all. -/
theorem claim_C4_ensureLoaded_never_fails_witness :
    (ensureLoaded none none false exFailOutcomes []).2 = none
    ∧ (ensureLoaded none none false exOkOutcomes []).1 =
        some (mergeSourceData (fetchAll exOkOutcomes).1 [])
    ∧ (ensureLoaded none (some exDb) false exFailOutcomes []).1 = some exDb
    ∧ (ensureLoaded none none false exFailOutcomes []).1 = none
    ∧ ∀ name version,
        CheckPackage (ensureLoaded none none false exFailOutcomes []).1 name version =
          CheckPackage (some (emptyDb [])) name version := by
  refine ⟨(claim_C4_ensureLoaded_never_fails none none false exFailOutcomes []).1,
    (claim_C4_ensureLoaded_never_fails none none false exOkOutcomes []).2.1 rfl (by decide),
    (claim_C4_ensureLoaded_never_fails none (some exDb) false exFailOutcomes []).2.2.1 rfl
      (by decide) (by decide),
    ((claim_C4_ensureLoaded_never_fails none none false exFailOutcomes []).2.2.2 rfl rfl
      (by decide)).1,
    ((claim_C4_ensureLoaded_never_fails none none false exFailOutcomes []).2.2.2 rfl rfl
      (by decide)).2⟩

/-! ### Merge: equality modulo unordered sets (claim C3) -/

/-- Two string lists holding the same elements, order and multiplicity
ignored. -/
def sameSet (l1 l2 : List Str) : Prop := ∀ s, s ∈ l1 ↔ s ∈ l2

/-- Two merged package records equal when versions, sources, campaigns and
advisory ids are compared as sets (timestamps ignored). -/
def pkgEquiv (p q : CompromisedPackage) : Prop :=
  sameSet p.Versions q.Versions ∧ sameSet p.Sources q.Sources ∧
    sameSet p.Campaigns q.Campaigns ∧ sameSet p.AdvisoryIDs q.AdvisoryIDs

/-- `pkgEquiv` lifted to optional entries. -/
def optPkgEquiv : Option CompromisedPackage → Option CompromisedPackage → Prop
  | none, none => True
  | some p, some q => pkgEquiv p q
  | _, _ => False

/-- Index equality modulo unordered sets: same entries under every name,
fields compared as sets, and the same contributing-source set. -/
def dbEquiv (d1 d2 : IOCDatabase) : Prop :=
  (∀ n, optPkgEquiv (assocFind n d1.Packages) (assocFind n d2.Packages)) ∧
    sameSet d1.Sources d2.Sources

/-- One source's contribution to the merged entry for name `n`
(proof-side restatement of `mergeStep` at a single key). -/
def mergeOne (s : SourceData) (now n : Str) (prev : Option CompromisedPackage) :
    Option CompromisedPackage :=
  match assocFind n s.Packages with
  | none => prev
  | some pkg =>
    match prev with
    | none => some (createNewPackage n s pkg now)
    | some ex => some (mergeExistingPackage ex s pkg now)

lemma pkgEquiv_refl (p : CompromisedPackage) : pkgEquiv p p :=
  ⟨fun _ => Iff.rfl, fun _ => Iff.rfl, fun _ => Iff.rfl, fun _ => Iff.rfl⟩

lemma assocFind_foldl_merge (now n : Str) :
    ∀ (srcs : List SourceData) (m : List (Str × CompromisedPackage)),
      (∀ s ∈ srcs, (s.Packages.map Prod.fst).Nodup) →
      assocFind n (srcs.foldl (fun m s => mergeSourceIntoPackages m s now) m) =
        srcs.foldl (fun prev s => mergeOne s now n prev) (assocFind n m) := by
  intro srcs
  induction srcs with
  | nil => intro m _; rfl
  | cons s rest ih =>
    intro m h
    simp only [List.foldl_cons]
    rw [ih _ (fun s hs => h s (List.mem_cons_of_mem _ hs))]
    congr 1
    rw [mergeSourceIntoPackages,
      assocFind_mergeSourceIntoPackages s now n s.Packages m (h s (List.mem_cons_self _ _))]
    rfl

/-- Lookup in a merged database, source by source. -/
lemma assocFind_mergeSourceData (srcs : List SourceData) (now n : Str)
    (h : ∀ s ∈ srcs, (s.Packages.map Prod.fst).Nodup) :
    assocFind n (mergeSourceData srcs now).Packages =
      srcs.foldl (fun prev s => mergeOne s now n prev) none :=
  assocFind_foldl_merge now n srcs [] h

lemma assocFind_mem (k : Str) (v : α) :
    ∀ m : List (Str × α), assocFind k m = some v → (k, v) ∈ m := by
  intro m
  induction m with
  | nil => intro h; cases h
  | cons e rest ih =>
    obtain ⟨k', v'⟩ := e
    intro h
    by_cases hk : k' = k
    · subst hk
      rw [assocFind, if_pos rfl] at h
      cases h
      exact List.mem_cons_self _ _
    · rw [assocFind, if_neg hk] at h
      exact List.mem_cons_of_mem _ (ih h)

/-- Merging the same two entries in either order yields the same sets. -/
lemma pkgEquiv_comm_create (n : Str) (A B : SourceData) (pa pb : SourcePackage) (now : Str) :
    pkgEquiv (mergeExistingPackage (createNewPackage n A pa now) B pb now)
             (mergeExistingPackage (createNewPackage n B pb now) A pa now) := by
  refine ⟨fun s => ?_, fun s => ?_, fun s => ?_, fun s => ?_⟩
  · simp only [mergeExistingPackage, createNewPackage, mem_uniqueStrings, List.mem_append]
    tauto
  · simp only [mergeExistingPackage, createNewPackage, mem_uniqueStrings, List.mem_append,
      List.mem_singleton]
    tauto
  · simp only [mergeExistingPackage, createNewPackage]
    by_cases hA : A.Campaign = [] <;> by_cases hB : B.Campaign = [] <;>
      simp [hA, hB, mem_uniqueStrings] <;> aesop
  · simp only [mergeExistingPackage, createNewPackage]
    by_cases hA : pa.AdvisoryID = [] <;> by_cases hB : pb.AdvisoryID = [] <;>
      simp [hA, hB, mem_uniqueStrings] <;> aesop

/-- Re-merging a freshly created entry with its own source changes no set,
provided the version strings and the source id are non-empty. -/
lemma pkgEquiv_create_remerge (n : Str) (A : SourceData) (pa : SourcePackage)
    (now now' : Str) (hV : [] ∉ pa.Versions) (hS : A.Source ≠ []) :
    pkgEquiv (createNewPackage n A pa now)
             (mergeExistingPackage (createNewPackage n A pa now) A pa now') := by
  refine ⟨fun s => ?_, fun s => ?_, fun s => ?_, fun s => ?_⟩
  · simp only [mergeExistingPackage, createNewPackage, mem_uniqueStrings, List.mem_append]
    constructor
    · intro h; exact ⟨Or.inl h, fun he => hV (he ▸ h)⟩
    · rintro ⟨h | h, -⟩ <;> exact h
  · simp only [mergeExistingPackage, createNewPackage, mem_uniqueStrings, List.mem_append,
      List.mem_singleton]
    constructor
    · intro h
      refine ⟨Or.inl h, fun he => hS ?_⟩
      rw [← he]
      exact h.symm
    · rintro ⟨h | h, -⟩ <;> exact h
  · simp only [mergeExistingPackage, createNewPackage]
    by_cases hA : A.Campaign = [] <;> simp [hA, mem_uniqueStrings] <;> aesop
  · simp only [mergeExistingPackage, createNewPackage]
    by_cases hA : pa.AdvisoryID = [] <;> simp [hA, mem_uniqueStrings] <;> aesop

/-- Re-merging an already-merged entry with one of its own sources changes
no set (the outer `uniqueStrings` re-filters empties). -/
lemma pkgEquiv_merge_remerge (n : Str) (A B : SourceData) (pa pb : SourcePackage)
    (now now' : Str) :
    pkgEquiv (mergeExistingPackage (createNewPackage n A pa now) B pb now)
             (mergeExistingPackage
               (mergeExistingPackage (createNewPackage n A pa now) B pb now) A pa now') := by
  refine ⟨fun s => ?_, fun s => ?_, fun s => ?_, fun s => ?_⟩
  · simp only [mergeExistingPackage, createNewPackage, mem_uniqueStrings, List.mem_append]
    tauto
  · simp only [mergeExistingPackage, createNewPackage, mem_uniqueStrings, List.mem_append,
      List.mem_singleton]
    tauto
  · simp only [mergeExistingPackage, createNewPackage]
    by_cases hA : A.Campaign = [] <;> by_cases hB : B.Campaign = [] <;>
      simp [hA, hB, mem_uniqueStrings] <;> aesop
  · simp only [mergeExistingPackage, createNewPackage]
    by_cases hA : pa.AdvisoryID = [] <;> by_cases hB : pb.AdvisoryID = [] <;>
      simp [hA, hB, mem_uniqueStrings] <;> aesop

/-- First source of the C3 counterexample: one package whose version list
holds the empty string. -/
def cexA : SourceData :=
  { Source := "a".toList, Campaign := [],
    Packages := [("p".toList, { Versions := [[]] })], FetchedAt := [] }

/-- Second source of the C3 counterexample: no packages. -/
def cexB : SourceData :=
  { Source := "b".toList, Campaign := [], Packages := [], FetchedAt := [] }

/-- C3 counterexample: with an empty version string in source A, merging
`[A, B, A]` is not set-equal to merging `[A, B]` (the claim's idempotence
fails as stated): the re-merge silently drops the empty version. -/
theorem claim_C3_counterexample :
    ¬ dbEquiv (mergeSourceData [cexA, cexB] []) (mergeSourceData [cexA, cexB, cexA] []) := by
  intro h
  have h1 := h.1 "p".toList
  have e1 : assocFind "p".toList (mergeSourceData [cexA, cexB] []).Packages =
      some { Name := "p".toList, Versions := [[]], Sources := ["a".toList],
             Campaigns := [], AdvisoryIDs := [], FirstSeen := [] } := by decide
  have e2 : assocFind "p".toList (mergeSourceData [cexA, cexB, cexA] []).Packages =
      some { Name := "p".toList, Versions := [], Sources := ["a".toList],
             Campaigns := [], AdvisoryIDs := [], FirstSeen := [] } := by decide
  rw [e1, e2] at h1
  have h2 : pkgEquiv
      { Name := "p".toList, Versions := [[]], Sources := ["a".toList],
        Campaigns := [], AdvisoryIDs := [], FirstSeen := [] }
      { Name := "p".toList, Versions := [], Sources := ["a".toList],
        Campaigns := [], AdvisoryIDs := [], FirstSeen := [] } := h1
  have h3 := (h2.1 []).mp (by simp)
  simp at h3

/-- C3 (amended): for source records with distinct package keys (the Go map
invariant), merging is commutative modulo unordered sets; and when source
A's version strings and source identifier are non-empty, merging
`[A, B, A]` is set-equal to merging `[A, B]` (idempotence).  Without the
non-emptiness restriction idempotence fails (see the counterexample). -/
theorem claim_C3_merge_commutative_idempotent (A B : SourceData) (now : Str)
    (hA : (A.Packages.map Prod.fst).Nodup) (hB : (B.Packages.map Prod.fst).Nodup) :
    dbEquiv (mergeSourceData [A, B] now) (mergeSourceData [B, A] now)
    ∧ ((∀ e ∈ A.Packages, [] ∉ e.2.Versions) → A.Source ≠ [] →
        dbEquiv (mergeSourceData [A, B] now) (mergeSourceData [A, B, A] now)) := by
  have hsAB : ∀ s ∈ [A, B], (s.Packages.map Prod.fst).Nodup := by
    intro s hs
    simp only [List.mem_cons, List.not_mem_nil, or_false] at hs
    rcases hs with rfl | rfl
    · exact hA
    · exact hB
  have hsBA : ∀ s ∈ [B, A], (s.Packages.map Prod.fst).Nodup := by
    intro s hs
    simp only [List.mem_cons, List.not_mem_nil, or_false] at hs
    rcases hs with rfl | rfl
    · exact hB
    · exact hA
  have hsABA : ∀ s ∈ [A, B, A], (s.Packages.map Prod.fst).Nodup := by
    intro s hs
    simp only [List.mem_cons, List.not_mem_nil, or_false] at hs
    rcases hs with rfl | rfl | rfl
    · exact hA
    · exact hB
    · exact hA
  refine ⟨⟨fun n => ?_, fun s => ?_⟩, fun hAv hAs => ⟨fun n => ?_, fun s => ?_⟩⟩
  · rw [assocFind_mergeSourceData _ _ _ hsAB, assocFind_mergeSourceData _ _ _ hsBA]
    simp only [List.foldl_cons, List.foldl_nil]
    cases ha : assocFind n A.Packages with
    | none =>
      cases hb : assocFind n B.Packages with
      | none => simp only [mergeOne, ha, hb]; trivial
      | some pb =>
        simp only [mergeOne, ha, hb]
        exact pkgEquiv_refl _
    | some pa =>
      cases hb : assocFind n B.Packages with
      | none =>
        simp only [mergeOne, ha, hb]
        exact pkgEquiv_refl _
      | some pb =>
        simp only [mergeOne, ha, hb]
        exact pkgEquiv_comm_create n A B pa pb now
  · rw [show (mergeSourceData [A, B] now).Sources = dedupStrs [A.Source, B.Source] from rfl,
      show (mergeSourceData [B, A] now).Sources = dedupStrs [B.Source, A.Source] from rfl]
    simp only [mem_dedupStrs, List.mem_cons, List.not_mem_nil]
    tauto
  · rw [assocFind_mergeSourceData _ _ _ hsAB, assocFind_mergeSourceData _ _ _ hsABA]
    simp only [List.foldl_cons, List.foldl_nil]
    cases ha : assocFind n A.Packages with
    | none =>
      cases hb : assocFind n B.Packages with
      | none => simp only [mergeOne, ha, hb]; trivial
      | some pb =>
        simp only [mergeOne, ha, hb]
        exact pkgEquiv_refl _
    | some pa =>
      have hVa : [] ∉ pa.Versions := hAv (n, pa) (assocFind_mem n pa A.Packages ha)
      cases hb : assocFind n B.Packages with
      | none =>
        simp only [mergeOne, ha, hb]
        exact pkgEquiv_create_remerge n A pa now now hVa hAs
      | some pb =>
        simp only [mergeOne, ha, hb]
        exact pkgEquiv_merge_remerge n A B pa pb now now
  · rw [show (mergeSourceData [A, B] now).Sources = dedupStrs [A.Source, B.Source] from rfl,
      show (mergeSourceData [A, B, A] now).Sources =
        dedupStrs [A.Source, B.Source, A.Source] from rfl]
    simp only [mem_dedupStrs, List.mem_cons, List.not_mem_nil]
    tauto

/-- Witness for C3 at concrete sources (scenario 4 of the spec). -/
theorem claim_C3_merge_commutative_idempotent_witness :
    dbEquiv (mergeSourceData [exSrcA, cexB] []) (mergeSourceData [cexB, exSrcA] [])
    ∧ dbEquiv (mergeSourceData [exSrcA, cexB] []) (mergeSourceData [exSrcA, cexB, exSrcA] []) :=
  ⟨(claim_C3_merge_commutative_idempotent exSrcA cexB [] (by decide) (by decide)).1,
   (claim_C3_merge_commutative_idempotent exSrcA cexB [] (by decide) (by decide)).2
     (by decide) (by decide)⟩

/-! ### Go string helpers shared by the lockfile parsers -/

/-- `unicode.IsSpace` restricted to ASCII (what `strings.TrimSpace` uses on
ASCII input). -/
def isSpaceGo (c : Char) : Bool :=
  c = ' ' || c = '\t' || c = '\n' || c = (Char.ofNat 11) || c = (Char.ofNat 12) || c = '\r'

/-- RE2's `\s` character class: `[\t\n\f\r ]`. -/
def isRe2Space (c : Char) : Bool :=
  c = ' ' || c = '\t' || c = '\n' || c = (Char.ofNat 12) || c = '\r'

/-- `strings.TrimSpace`. -/
def trimSpace (s : Str) : Str :=
  ((s.dropWhile isSpaceGo).reverse.dropWhile isSpaceGo).reverse

/-- `strings.Trim(s, string(c))` for a one-character cutset. -/
def trimChar (c : Char) (s : Str) : Str :=
  ((s.dropWhile (· = c)).reverse.dropWhile (· = c)).reverse

/-- `strings.TrimSuffix(s, string(c))` for a one-character suffix. -/
def trimSuffixChar (c : Char) (s : Str) : Str :=
  if s.getLast? = some c then s.dropLast else s

/-- Text after the last occurrence of `'@'` (`strings.LastIndex` slice
`s[idx+1:]`); the whole string when there is no `'@'`. -/
def afterLastAt (s : Str) : Str := (s.reverse.takeWhile (· ≠ '@')).reverse

/-- Text before the last occurrence of `'@'` (`s[:idx]`); empty when there
is no `'@'`. -/
def beforeLastAt (s : Str) : Str := ((s.reverse.dropWhile (· ≠ '@')).drop 1).reverse

/-- The deduplication key `name + "@" + version` used by every parser. -/
def nvKey (n v : Str) : Str := n ++ "@".toList ++ v

/-! ### npm parser (internal/lockfile/npm.go) -/

/-- `npmPackageJSON` (npm.go): the fields the parser reads. -/
structure NpmPackageJSON where
  Version : Str
  Dev : Bool := false
  Optional : Bool := false
  deriving Repr, DecidableEq

/-- The literal `"node_modules/"`. -/
def nmSep : Str := "node_modules/".toList

/-- `strings.Split(path, "node_modules/")`, specialised to that separator:
split before each non-overlapping occurrence, scanning left to right.
`acc` is the (reversed) current chunk. -/
def splitNMAux : Str → Str → List Str
  | [], acc => [acc.reverse]
  | c :: rest, acc =>
    if hasPref nmSep (c :: rest) then
      acc.reverse :: splitNMAux ((c :: rest).drop nmSep.length) []
    else splitNMAux rest (c :: acc)
  termination_by s _ => s.length
  decreasing_by
  · have h13 : nmSep.length = 13 := rfl
    simp only [List.length_drop, List.length_cons, h13]
    omega
  · simp only [List.length_cons]
    omega

/-- `strings.Split(path, "node_modules/")`. -/
def splitNM (path : Str) : List Str := splitNMAux path []

/-- `extractPackageName` (npm.go): text after the final `node_modules/`;
for scoped names the first two `/`-segments, else the first segment. -/
def extractPackageName (path : Str) : Str :=
  let parts := splitNM path
  if parts.length < 2 then []
  else
    let name := parts.getLastD []
    match name with
    | '@' :: _ =>
      if name.contains '/' then
        name.takeWhile (· ≠ '/') ++
          '/' :: ((name.dropWhile (· ≠ '/')).drop 1).takeWhile (· ≠ '/')
      else name.takeWhile (· ≠ '/')
    | _ => name.takeWhile (· ≠ '/')

/-- Loop of `parseNPMPackages` (npm.go): skip the root entry and unnamed
paths, deduplicate by `name@version`. -/
def parseNPMPackagesGo : List (Str × NpmPackageJSON) → List Str → List Dependency → List Dependency
  | [], _, deps => deps
  | (pkgPath, pkg) :: rest, seen, deps =>
    if pkgPath = [] then parseNPMPackagesGo rest seen deps
    else
      let name := extractPackageName pkgPath
      if name = [] then parseNPMPackagesGo rest seen deps
      else
        let key := nvKey name pkg.Version
        if seen.contains key then parseNPMPackagesGo rest seen deps
        else parseNPMPackagesGo rest (key :: seen)
          (deps ++ [{ Name := name, Version := pkg.Version,
                      Dev := pkg.Dev, Optional := pkg.Optional }])

/-- `parseNPMPackages` (npm.go). -/
def parseNPMPackages (packages : List (Str × NpmPackageJSON)) : List Dependency :=
  parseNPMPackagesGo packages [] []

/-- `npmDependencyJSON` (npm.go): the recursive v1 `dependencies` tree. -/
inductive NpmDepNode where
  | mk (version : Str) (dev optional : Bool) (dependencies : List (Str × NpmDepNode))
  deriving Repr

mutual
/-- The closure `walk` of `parseNPMDependencies` (npm.go): emit unless the
`name@version` key was seen, then descend into nested dependencies. -/
def walkDep (name : Str) (node : NpmDepNode) (st : List Str × List Dependency) :
    List Str × List Dependency :=
  match node with
  | .mk version dev opt children =>
    let key := nvKey name version
    if st.1.contains key then st
    else walkList children
      (key :: st.1, st.2 ++ [{ Name := name, Version := version, Dev := dev, Optional := opt }])

/-- The iteration over a `dependencies` map in `parseNPMDependencies`. -/
def walkList (children : List (Str × NpmDepNode)) (st : List Str × List Dependency) :
    List Str × List Dependency :=
  match children with
  | [] => st
  | (n, c) :: rest => walkList rest (walkDep n c st)
end

/-- `parseNPMDependencies` (npm.go). -/
def parseNPMDependencies (dependencies : List (Str × NpmDepNode)) : List Dependency :=
  (walkList dependencies ([], [])).2

/-! ### yarn-classic parser (src/unnamed/part_016, refactored version) -/

/-- `shouldSkipLine` (yarn classic): comments and blank lines. -/
def shouldSkipLine (line : Str) : Bool :=
  hasPref "#".toList line || trimSpace line = []

/-- `isHeaderLine` (yarn classic): unindented line. -/
def isHeaderLine (line : Str) : Bool :=
  !(hasPref " ".toList line) && !(hasPref "\t".toList line)

/-- `extractYarnPackageName` (yarn classic): strip trailing `:` and
surrounding quotes, keep the text before the first comma, then the name is
up to the second `@` for scoped specifiers, else up to the first `@`. -/
def extractYarnPackageName (line : Str) : Str :=
  let l1 := trimSuffixChar ':' line
  let l2 := trimChar '"' l1
  let l3 := l2.takeWhile (· ≠ ',')
  match l3 with
  | '@' :: tail =>
    if tail.contains '@' then '@' :: tail.takeWhile (· ≠ '@') else l3
  | _ =>
    if l3.contains '@' then l3.takeWhile (· ≠ '@') else l3

/-- The regexp `^\s+version\s+"([^"]+)"` (`yarnVersionRe`), returning the
capture group. -/
def yarnVersionMatch (line : Str) : Option Str :=
  let ws1 := line.takeWhile isRe2Space
  if ws1 = [] then none
  else
    let r1 := line.dropWhile isRe2Space
    if hasPref "version".toList r1 then
      let r2 := r1.drop 7
      if r2.takeWhile isRe2Space = [] then none
      else
        match r2.dropWhile isRe2Space with
        | '"' :: r4 =>
          let capture := r4.takeWhile (· ≠ '"')
          if capture = [] then none
          else
            match r4.dropWhile (· ≠ '"') with
            | '"' :: _ => some capture
            | _ => none
        | _ => none
    else none

/-- `processVersionLine` (yarn classic): returns (processed, seen, deps). -/
def processVersionLine (line currentPackage : Str) (seen : List Str)
    (deps : List Dependency) : Bool × List Str × List Dependency :=
  if currentPackage = [] then (false, seen, deps)
  else
    match yarnVersionMatch line with
    | none => (false, seen, deps)
    | some version =>
      let key := nvKey currentPackage version
      if seen.contains key then (true, seen, deps)
      else (true, key :: seen,
        deps ++ [{ Name := currentPackage, Version := version }])

/-- `scanYarnLockfile` (yarn classic) over the file's lines. -/
def scanYarnGo : List Str → Str → List Str → List Dependency → List Dependency
  | [], _, _, deps => deps
  | line :: rest, current, seen, deps =>
    if shouldSkipLine line then scanYarnGo rest current seen deps
    else if isHeaderLine line then
      scanYarnGo rest (extractYarnPackageName line) seen deps
    else
      match processVersionLine line current seen deps with
      | (true, seen', deps') => scanYarnGo rest [] seen' deps'
      | (false, seen', deps') => scanYarnGo rest current seen' deps'

/-- `scanYarnLockfile` (yarn classic). -/
def scanYarnLockfile (lines : List Str) : List Dependency :=
  scanYarnGo lines [] [] []

/-! ### yarn-berry parser (src/unnamed/part_011) -/

/-- `yarnBerryEntry` (part_011). -/
structure YarnBerryEntry where
  Version : Str
  Resolution : Str
  deriving Repr, DecidableEq

/-- `extractBerryPackageName` (part_011): first specifier before the comma,
trimmed; name up to the second `@` for scoped keys, else up to the first
`@`; empty when there is no version separator. -/
def extractBerryPackageName (key : Str) : Str :=
  let k1 := key.takeWhile (· ≠ ',')
  let k2 := trimSpace k1
  let k3 := trimChar '"' k2
  match k3 with
  | '@' :: tail =>
    if tail.contains '@' then '@' :: tail.takeWhile (· ≠ '@') else []
  | _ =>
    if k3.contains '@' then k3.takeWhile (· ≠ '@') else []

/-- Loop of `parseYarnBerry` (part_011): skip `__metadata`, unnamed keys
and `workspace:` resolutions; deduplicate by `name@version`. -/
def parseYarnBerryGo : List (Str × YarnBerryEntry) → List Str → List Dependency → List Dependency
  | [], _, deps => deps
  | (key, entry) :: rest, seen, deps =>
    if key = "__metadata".toList then parseYarnBerryGo rest seen deps
    else
      let name := extractBerryPackageName key
      if name = [] then parseYarnBerryGo rest seen deps
      else if hasPref "workspace:".toList entry.Resolution then parseYarnBerryGo rest seen deps
      else
        let dedupKey := nvKey name entry.Version
        if seen.contains dedupKey then parseYarnBerryGo rest seen deps
        else parseYarnBerryGo rest (dedupKey :: seen)
          (deps ++ [{ Name := name, Version := entry.Version }])

/-- `parseYarnBerry` (part_011) on the decoded YAML mapping. -/
def parseYarnBerry (lockfile : List (Str × YarnBerryEntry)) : List Dependency :=
  parseYarnBerryGo lockfile [] []

/-! ### pnpm parser (src/unnamed/part_013) -/

/-- `pnpmPackage` (part_013): the fields the parser reads. -/
structure PnpmPackage where
  Version : Str := []
  Dev : Bool := false
  Optional : Bool := false
  deriving Repr, DecidableEq

/-- `stripPeerDeps` (part_013): cut at the first `_`. -/
def stripPeerDeps (version : Str) : Str :=
  if version.contains '_' then version.takeWhile (· ≠ '_') else version

/-- `extractPnpmName` (part_013): v6+ keys with an explicit version.
`strings.LastIndex(key, "@") <= 0` (no `@`, or only a leading one) gives
the empty name. -/
def extractPnpmName (key : Str) : Str :=
  if ¬ key.contains '@' then []
  else if beforeLastAt key = [] then []
  else
    match key with
    | '@' :: tail =>
      if tail.contains '@' then '@' :: tail.takeWhile (· ≠ '@') else []
    | _ => beforeLastAt key

/-- `parsePnpmV5Key` (part_013): `/pkg/version`, `pkg@version`,
`@scope/pkg/version` or `@scope/pkg@version` (leading `/` already
stripped). -/
def parsePnpmV5Key (key : Str) : Str × Str :=
  match key with
  | '@' :: _ =>
    if ¬ key.contains '/' then ([], [])
    else
      let rest := (key.dropWhile (· ≠ '/')).drop 1
      if rest.contains '@' then
        (key.takeWhile (· ≠ '/') ++ '/' :: rest.takeWhile (· ≠ '@'),
         (rest.dropWhile (· ≠ '@')).drop 1)
      else
        let parts := key.splitOn '/'
        if 3 ≤ parts.length then (parts.getD 0 [] ++ '/' :: parts.getD 1 [], parts.getD 2 [])
        else ([], [])
  | _ =>
    if ((key.takeWhile (· ≠ '@')).contains '/') then
      let parts := key.splitOn '/'
      if 2 ≤ parts.length then (parts.getD 0 [], parts.getD 1 [])
      else ([], [])
    else
      if key.contains '@' then
        (key.takeWhile (· ≠ '@'), (key.dropWhile (· ≠ '@')).drop 1)
      else ([], [])

/-- `parsePnpmPackageKey` (part_013). -/
def parsePnpmPackageKey (key explicitVersion : Str) : Str × Str :=
  let key := if hasPref "/".toList key then key.drop 1 else key
  if explicitVersion ≠ [] then (extractPnpmName key, explicitVersion)
  else
    let nv := parsePnpmV5Key key
    (nv.1, stripPeerDeps nv.2)

/-- Loop of `parsePNPM` (part_013): skip entries without a name or
version; deduplicate by `name@version`; keep `dev`/`optional`. -/
def parsePNPMGo : List (Str × PnpmPackage) → List Str → List Dependency → List Dependency
  | [], _, deps => deps
  | (key, pkg) :: rest, seen, deps =>
    let nv := parsePnpmPackageKey key pkg.Version
    if nv.1 = [] ∨ nv.2 = [] then parsePNPMGo rest seen deps
    else
      let dedupKey := nvKey nv.1 nv.2
      if seen.contains dedupKey then parsePNPMGo rest seen deps
      else parsePNPMGo rest (dedupKey :: seen)
        (deps ++ [{ Name := nv.1, Version := nv.2, Dev := pkg.Dev, Optional := pkg.Optional }])

/-- `parsePNPM` (part_013) on the decoded `packages` mapping. -/
def parsePNPM (packages : List (Str × PnpmPackage)) : List Dependency :=
  parsePNPMGo packages [] []

/-! ### bun parser (src/unnamed/part_011, second file) -/

/-- A decoded JSON value as far as the bun parser inspects it: a string,
an array, or anything else (numbers, objects, booleans). -/
inductive Json where
  | str : Str → Json
  | arr : List Json → Json
  | other : Json
  deriving Repr

/-- `extractBunPackageName` (part_011). -/
def extractBunPackageName (key : Str) : Str :=
  match key with
  | '@' :: tail =>
    if tail.contains '@' then '@' :: tail.takeWhile (· ≠ '@') else key
  | _ =>
    if key.contains '@' then key.takeWhile (· ≠ '@') else key

/-- `extractBunVersion` (part_011): verbatim when the resolution starts
with a decimal digit, else the text after the last `@` (the whole string
when there is no `@`). -/
def extractBunVersion (s : Str) : Str :=
  match s with
  | [] => []
  | c :: rest =>
    if '0' ≤ c ∧ c ≤ '9' then c :: rest
    else if (c :: rest).contains '@' then afterLastAt (c :: rest)
    else c :: rest

/-- `parseBunEntry` (part_011): a string entry is the resolution; an array
entry contributes its first element when that is a string; anything else
yields no version. -/
def parseBunEntry (key : Str) (entry : Json) : Str × Str :=
  let version :=
    match entry with
    | .str s => extractBunVersion s
    | .arr (first :: _) =>
      match first with
      | .str s => extractBunVersion s
      | _ => []
    | _ => []
  (extractBunPackageName key, version)

/-- Inner loop of `parseBun` (part_011) over one key's entry array. -/
def parseBunEntries (key : Str) : List Json → List Str → List Dependency →
    List Str × List Dependency
  | [], seen, deps => (seen, deps)
  | entry :: rest, seen, deps =>
    let nv := parseBunEntry key entry
    if nv.1 = [] ∨ nv.2 = [] then parseBunEntries key rest seen deps
    else
      let dedupKey := nvKey nv.1 nv.2
      if seen.contains dedupKey then parseBunEntries key rest seen deps
      else parseBunEntries key rest (dedupKey :: seen)
        (deps ++ [{ Name := nv.1, Version := nv.2 }])

/-- Outer loop of `parseBun` (part_011): skip empty and `workspace:` keys. -/
def parseBunGo : List (Str × List Json) → List Str → List Dependency → List Dependency
  | [], _, deps => deps
  | (key, entries) :: rest, seen, deps =>
    if key = [] ∨ hasPref "workspace:".toList key then parseBunGo rest seen deps
    else
      let st := parseBunEntries key entries seen deps
      parseBunGo rest st.1 st.2

/-- `json.Unmarshal` of the `packages` mapping into
`map[string][]json.RawMessage` (`bunLockfileJSON`, part_011): every map
value must itself be a JSON array, else unmarshalling fails. -/
def collectBunArrays : List (Str × Json) → Option (List (Str × List Json))
  | [] => some []
  | (k, Json.arr es) :: rest => (collectBunArrays rest).map ((k, es) :: ·)
  | _ => none

/-- `parseBun` (part_011) from the decoded `packages` object: unmarshal
into `map[string][]json.RawMessage`, then run the entry loop. -/
def parseBunPackages (pkgs : List (Str × Json)) : Except Str (List Dependency) :=
  match collectBunArrays pkgs with
  | none => Except.error "json: cannot unmarshal value into []json.RawMessage".toList
  | some entries => Except.ok (parseBunGo entries [] [])

/-! ### deno parser (src/unnamed/part_015) -/

/-- `parseDenoNPMKey` (part_015): `name@version` or `@scope/name@version`,
with a `_peer` suffix stripped from the version. -/
def parseDenoNPMKey (key : Str) : Str × Str :=
  let nv : Str × Str :=
    match key with
    | '@' :: tail =>
      if tail.contains '@' then
        ('@' :: tail.takeWhile (· ≠ '@'), (tail.dropWhile (· ≠ '@')).drop 1)
      else ([], [])
    | _ =>
      if key.contains '@' then
        (key.takeWhile (· ≠ '@'), (key.dropWhile (· ≠ '@')).drop 1)
      else (key, [])
  (nv.1, if nv.2.contains '_' then nv.2.takeWhile (· ≠ '_') else nv.2)

/-- Loop of `parseDeno` (part_015) over the `packages.npm` keys. -/
def parseDenoGo : List Str → List Str → List Dependency → List Dependency
  | [], _, deps => deps
  | key :: rest, seen, deps =>
    let nv := parseDenoNPMKey key
    if nv.1 = [] ∨ nv.2 = [] then parseDenoGo rest seen deps
    else
      let dedupKey := nvKey nv.1 nv.2
      if seen.contains dedupKey then parseDenoGo rest seen deps
      else parseDenoGo rest (dedupKey :: seen)
        (deps ++ [{ Name := nv.1, Version := nv.2 }])

/-- `parseDeno` (part_015) on the decoded `packages.npm` key set. -/
def parseDeno (npmKeys : List Str) : List Dependency :=
  parseDenoGo npmKeys [] []

/-! ### The seen-set invariant shared by all six parsers (claim C2) -/

/-- No two emitted dependencies share the `(name, version)` pair. -/
def NoDupPairs (deps : List Dependency) : Prop :=
  deps.Pairwise (fun a b => ¬(a.Name = b.Name ∧ a.Version = b.Version))

/-- The parser-loop invariant: every emitted dependency's `name@version`
key is in the seen set, and emitted keys are pairwise distinct. -/
def DedupInv (seen : List Str) (deps : List Dependency) : Prop :=
  (∀ d ∈ deps, nvKey d.Name d.Version ∈ seen) ∧
    deps.Pairwise (fun a b => nvKey a.Name a.Version ≠ nvKey b.Name b.Version)

lemma dedupInv_nil : DedupInv [] [] := ⟨fun d hd => absurd hd (List.not_mem_nil d), List.Pairwise.nil⟩

/-- One guarded append preserves the invariant. -/
lemma dedupStep (seen : List Str) (deps : List Dependency) (n v : Str) (dev opt : Bool)
    (h : DedupInv seen deps) (hnot : nvKey n v ∉ seen) :
    DedupInv (nvKey n v :: seen)
      (deps ++ [{ Name := n, Version := v, Dev := dev, Optional := opt }]) := by
  constructor
  · intro d hd
    rcases List.mem_append.mp hd with hd | hd
    · exact List.mem_cons_of_mem _ (h.1 d hd)
    · rw [List.mem_singleton] at hd
      subst hd
      exact List.mem_cons_self _ _
  · rw [List.pairwise_append]
    refine ⟨h.2, List.pairwise_singleton _ _, ?_⟩
    intro a ha b hb
    rw [List.mem_singleton] at hb
    subst hb
    intro he
    exact hnot (he ▸ h.1 a ha)

/-- The invariant forces no duplicate `(name, version)` pair. -/
lemma noDupPairs_of_dedupInv (seen : List Str) (deps : List Dependency)
    (h : DedupInv seen deps) : NoDupPairs deps := by
  refine h.2.imp ?_
  rintro a b hk ⟨h1, h2⟩
  exact hk (by rw [nvKey, nvKey, h1, h2])

lemma not_mem_of_not_contains {seen : List Str} {k : Str}
    (h : ¬ seen.contains k = true) : k ∉ seen :=
  fun hm => h (List.elem_iff.mpr hm)

lemma parseNPMPackagesGo_inv :
    ∀ (entries : List (Str × NpmPackageJSON)) (seen : List Str) (deps : List Dependency),
      DedupInv seen deps → ∃ seen', DedupInv seen' (parseNPMPackagesGo entries seen deps) := by
  intro entries
  induction entries with
  | nil => intro seen deps h; exact ⟨seen, h⟩
  | cons e rest ih =>
    intro seen deps h
    obtain ⟨pkgPath, pkg⟩ := e
    rw [parseNPMPackagesGo]
    by_cases h1 : pkgPath = []
    · simp only [h1, if_pos rfl]; exact ih _ _ h
    · rw [if_neg h1]
      by_cases h2 : extractPackageName pkgPath = []
      · rw [if_pos h2]; exact ih _ _ h
      · rw [if_neg h2]
        by_cases h3 : seen.contains (nvKey (extractPackageName pkgPath) pkg.Version) = true
        · rw [if_pos h3]; exact ih _ _ h
        · rw [if_neg h3]
          exact ih _ _ (dedupStep _ _ _ _ _ _ h (not_mem_of_not_contains h3))

mutual
/-- `walk` preserves the seen-set invariant. -/
lemma walkDep_inv (name : Str) (node : NpmDepNode) (st : List Str × List Dependency)
    (h : DedupInv st.1 st.2) :
    DedupInv (walkDep name node st).1 (walkDep name node st).2 :=
  match node with
  | .mk version dev opt children => by
    rw [walkDep]
    by_cases hk : st.1.contains (nvKey name version) = true
    · rw [if_pos hk]; exact h
    · rw [if_neg hk]
      exact walkList_inv children _
        (dedupStep _ _ _ _ _ _ h (not_mem_of_not_contains hk))

/-- The nested-dependency iteration preserves the seen-set invariant. -/
lemma walkList_inv (children : List (Str × NpmDepNode)) (st : List Str × List Dependency)
    (h : DedupInv st.1 st.2) :
    DedupInv (walkList children st).1 (walkList children st).2 :=
  match children with
  | [] => by rw [walkList]; exact h
  | (n, c) :: rest => by
    rw [walkList]
    exact walkList_inv rest _ (walkDep_inv n c st h)
end

lemma scanYarnGo_inv :
    ∀ (lines : List Str) (current : Str) (seen : List Str) (deps : List Dependency),
      DedupInv seen deps → ∃ seen', DedupInv seen' (scanYarnGo lines current seen deps) := by
  intro lines
  induction lines with
  | nil => intro current seen deps h; exact ⟨seen, h⟩
  | cons line rest ih =>
    intro current seen deps h
    rw [scanYarnGo]
    by_cases h1 : shouldSkipLine line = true
    · rw [if_pos h1]; exact ih _ _ _ h
    · rw [if_neg h1]
      by_cases h2 : isHeaderLine line = true
      · rw [if_pos h2]; exact ih _ _ _ h
      · rw [if_neg h2]
        have hp : DedupInv (processVersionLine line current seen deps).2.1
            (processVersionLine line current seen deps).2.2 := by
          by_cases hc : current = []
          · rw [processVersionLine, if_pos hc]; exact h
          · cases hv : yarnVersionMatch line with
            | none =>
              rw [processVersionLine, if_neg hc, hv]
              exact h
            | some version =>
              rw [processVersionLine, if_neg hc, hv]
              dsimp only
              by_cases hk : seen.contains (nvKey current version) = true
              · rw [if_pos hk]; exact h
              · rw [if_neg hk]
                exact dedupStep _ _ _ _ _ _ h (not_mem_of_not_contains hk)
        rcases hm : processVersionLine line current seen deps with ⟨processed, seen', deps'⟩
        rw [hm] at hp
        cases processed
        · exact ih _ _ _ hp
        · exact ih _ _ _ hp

lemma parseYarnBerryGo_inv :
    ∀ (entries : List (Str × YarnBerryEntry)) (seen : List Str) (deps : List Dependency),
      DedupInv seen deps → ∃ seen', DedupInv seen' (parseYarnBerryGo entries seen deps) := by
  intro entries
  induction entries with
  | nil => intro seen deps h; exact ⟨seen, h⟩
  | cons e rest ih =>
    intro seen deps h
    obtain ⟨key, entry⟩ := e
    rw [parseYarnBerryGo]
    by_cases h1 : key = "__metadata".toList
    · rw [if_pos h1]; exact ih _ _ h
    · rw [if_neg h1]
      by_cases h2 : extractBerryPackageName key = []
      · rw [if_pos h2]; exact ih _ _ h
      · rw [if_neg h2]
        by_cases h3 : hasPref "workspace:".toList entry.Resolution = true
        · rw [if_pos h3]; exact ih _ _ h
        · rw [if_neg h3]
          by_cases h4 : seen.contains (nvKey (extractBerryPackageName key) entry.Version) = true
          · rw [if_pos h4]; exact ih _ _ h
          · rw [if_neg h4]
            exact ih _ _ (dedupStep _ _ _ _ _ _ h (not_mem_of_not_contains h4))

lemma parsePNPMGo_inv :
    ∀ (entries : List (Str × PnpmPackage)) (seen : List Str) (deps : List Dependency),
      DedupInv seen deps → ∃ seen', DedupInv seen' (parsePNPMGo entries seen deps) := by
  intro entries
  induction entries with
  | nil => intro seen deps h; exact ⟨seen, h⟩
  | cons e rest ih =>
    intro seen deps h
    obtain ⟨key, pkg⟩ := e
    rw [parsePNPMGo]
    by_cases h1 : (parsePnpmPackageKey key pkg.Version).1 = [] ∨
        (parsePnpmPackageKey key pkg.Version).2 = []
    · rw [if_pos h1]; exact ih _ _ h
    · rw [if_neg h1]
      by_cases h2 : seen.contains (nvKey (parsePnpmPackageKey key pkg.Version).1
          (parsePnpmPackageKey key pkg.Version).2) = true
      · rw [if_pos h2]; exact ih _ _ h
      · rw [if_neg h2]
        exact ih _ _ (dedupStep _ _ _ _ _ _ h (not_mem_of_not_contains h2))

lemma parseBunEntries_inv (key : Str) :
    ∀ (entries : List Json) (seen : List Str) (deps : List Dependency),
      DedupInv seen deps →
      DedupInv (parseBunEntries key entries seen deps).1 (parseBunEntries key entries seen deps).2 := by
  intro entries
  induction entries with
  | nil => intro seen deps h; exact h
  | cons entry rest ih =>
    intro seen deps h
    rw [parseBunEntries]
    by_cases h1 : (parseBunEntry key entry).1 = [] ∨ (parseBunEntry key entry).2 = []
    · rw [if_pos h1]; exact ih _ _ h
    · rw [if_neg h1]
      by_cases h2 : seen.contains (nvKey (parseBunEntry key entry).1
          (parseBunEntry key entry).2) = true
      · rw [if_pos h2]; exact ih _ _ h
      · rw [if_neg h2]
        exact ih _ _ (dedupStep _ _ _ _ _ _ h (not_mem_of_not_contains h2))

lemma parseBunGo_inv :
    ∀ (entries : List (Str × List Json)) (seen : List Str) (deps : List Dependency),
      DedupInv seen deps → ∃ seen', DedupInv seen' (parseBunGo entries seen deps) := by
  intro entries
  induction entries with
  | nil => intro seen deps h; exact ⟨seen, h⟩
  | cons e rest ih =>
    intro seen deps h
    obtain ⟨key, es⟩ := e
    rw [parseBunGo]
    by_cases h1 : key = [] ∨ hasPref "workspace:".toList key = true
    · rw [if_pos h1]; exact ih _ _ h
    · rw [if_neg h1]
      exact ih _ _ (parseBunEntries_inv key es seen deps h)

lemma parseDenoGo_inv :
    ∀ (keys : List Str) (seen : List Str) (deps : List Dependency),
      DedupInv seen deps → ∃ seen', DedupInv seen' (parseDenoGo keys seen deps) := by
  intro keys
  induction keys with
  | nil => intro seen deps h; exact ⟨seen, h⟩
  | cons key rest ih =>
    intro seen deps h
    rw [parseDenoGo]
    by_cases h1 : (parseDenoNPMKey key).1 = [] ∨ (parseDenoNPMKey key).2 = []
    · rw [if_pos h1]; exact ih _ _ h
    · rw [if_neg h1]
      by_cases h2 : seen.contains (nvKey (parseDenoNPMKey key).1 (parseDenoNPMKey key).2) = true
      · rw [if_pos h2]; exact ih _ _ h
      · rw [if_neg h2]
        exact ih _ _ (dedupStep _ _ _ _ _ _ h (not_mem_of_not_contains h2))

/-- C2: none of the six parsers (npm v2/v3, npm v1, yarn-classic,
yarn-berry, pnpm, bun, deno) returns two dependencies with the same
`(name, version)` pair. -/
theorem claim_C2_parsers_no_duplicate_pairs :
    (∀ packages : List (Str × NpmPackageJSON), NoDupPairs (parseNPMPackages packages))
    ∧ (∀ dependencies : List (Str × NpmDepNode), NoDupPairs (parseNPMDependencies dependencies))
    ∧ (∀ lines : List Str, NoDupPairs (scanYarnLockfile lines))
    ∧ (∀ lockfile : List (Str × YarnBerryEntry), NoDupPairs (parseYarnBerry lockfile))
    ∧ (∀ packages : List (Str × PnpmPackage), NoDupPairs (parsePNPM packages))
    ∧ (∀ (pkgs : List (Str × Json)) (deps : List Dependency),
        parseBunPackages pkgs = Except.ok deps → NoDupPairs deps)
    ∧ (∀ npmKeys : List Str, NoDupPairs (parseDeno npmKeys)) := by
  refine ⟨?_, ?_, ?_, ?_, ?_, ?_, ?_⟩
  · intro packages
    obtain ⟨seen', h⟩ := parseNPMPackagesGo_inv packages [] [] dedupInv_nil
    exact noDupPairs_of_dedupInv seen' _ h
  · intro dependencies
    exact noDupPairs_of_dedupInv _ _ (walkList_inv dependencies ([], []) dedupInv_nil)
  · intro lines
    obtain ⟨seen', h⟩ := scanYarnGo_inv lines [] [] [] dedupInv_nil
    exact noDupPairs_of_dedupInv seen' _ h
  · intro lockfile
    obtain ⟨seen', h⟩ := parseYarnBerryGo_inv lockfile [] [] dedupInv_nil
    exact noDupPairs_of_dedupInv seen' _ h
  · intro packages
    obtain ⟨seen', h⟩ := parsePNPMGo_inv packages [] [] dedupInv_nil
    exact noDupPairs_of_dedupInv seen' _ h
  · intro pkgs deps hok
    rw [parseBunPackages] at hok
    cases hc : collectBunArrays pkgs with
    | none => rw [hc] at hok; cases hok
    | some entries =>
      rw [hc] at hok
      cases hok
      obtain ⟨seen', h⟩ := parseBunGo_inv entries [] [] dedupInv_nil
      exact noDupPairs_of_dedupInv seen' _ h
  · intro npmKeys
    obtain ⟨seen', h⟩ := parseDenoGo_inv npmKeys [] [] dedupInv_nil
    exact noDupPairs_of_dedupInv seen' _ h

/-- Witness for C2 at concrete lockfile contents for each dialect
(duplicate transitive entries collapse to one). -/
theorem claim_C2_parsers_no_duplicate_pairs_witness :
    NoDupPairs (parseNPMPackages
      [("node_modules/lodash".toList, { Version := "4.17.21".toList }),
       ("node_modules/a/node_modules/lodash".toList, { Version := "4.17.21".toList })])
    ∧ NoDupPairs (parseNPMDependencies
      [("lodash".toList, NpmDepNode.mk "4.17.21".toList false false
          [("lodash".toList, NpmDepNode.mk "4.17.21".toList false false [])])])
    ∧ NoDupPairs (scanYarnLockfile
      ["lodash@^4.17.0:".toList, "  version \"4.17.21\"".toList])
    ∧ NoDupPairs (parseYarnBerry
      [("lodash@npm:^4.17.0".toList,
        { Version := "4.17.21".toList, Resolution := "lodash@npm:4.17.21".toList })])
    ∧ NoDupPairs (parsePNPM [("/lodash/4.17.21".toList, { })])
    ∧ NoDupPairs (parseBunGo [("lodash@4.17.21".toList,
        [Json.str "lodash@4.17.21".toList])] [] [])
    ∧ NoDupPairs (parseDeno ["lodash@4.17.21".toList]) := by
  refine ⟨claim_C2_parsers_no_duplicate_pairs.1 _,
    claim_C2_parsers_no_duplicate_pairs.2.1 _,
    claim_C2_parsers_no_duplicate_pairs.2.2.1 _,
    claim_C2_parsers_no_duplicate_pairs.2.2.2.1 _,
    claim_C2_parsers_no_duplicate_pairs.2.2.2.2.1 _,
    claim_C2_parsers_no_duplicate_pairs.2.2.2.2.2.1
      [("lodash@4.17.21".toList, Json.arr [Json.str "lodash@4.17.21".toList])] _ (by rfl),
    claim_C2_parsers_no_duplicate_pairs.2.2.2.2.2.2 _⟩

/-! ### yarn format detection (src/unnamed/part_016, `isYarnClassic`) -/

/-- `strings.Contains(s, pat)`: `hasSub pat s`. -/
def hasSub (pat : Str) : Str → Bool
  | [] => hasPref pat []
  | c :: rest => hasPref pat (c :: rest) || hasSub pat rest

/-- `isYarnClassic` (part_016) over the file's lines: skip blank lines;
the first non-blank line decides — marker present means classic,
`__metadata:` prefix means berry; anything else breaks out of the loop and
the function defaults to classic. -/
def isYarnClassicLines : List Str → Bool
  | [] => true
  | line :: rest =>
    if trimSpace line = [] then isYarnClassicLines rest
    else if hasSub "yarn lockfile v1".toList line then true
    else if hasPref "__metadata:".toList line then false
    else true

/-- `parseYarn` (part_011): the format tag the dispatch selects. -/
def yarnFormat (lines : List Str) : Str :=
  if isYarnClassicLines lines then "yarn-classic".toList else "yarn-berry".toList

/-- Modelled from the claim's wording (spec §4.2.b): classic iff a
non-blank line containing `yarn lockfile v1` appears before any line
starting with `__metadata:`. -/
def specYarnClassic : List Str → Bool
  | [] => false
  | line :: rest =>
    if hasSub "yarn lockfile v1".toList line ∧ trimSpace line ≠ [] then true
    else if hasPref "__metadata:".toList line then false
    else specYarnClassic rest

/-- The first non-blank line of the file. -/
def firstNonBlank : List Str → Option Str
  | [] => none
  | l :: rest => if trimSpace l = [] then firstNonBlank rest else some l

lemma mem_of_hasPref : ∀ (pat s : Str), hasPref pat s = true → ∀ c ∈ pat, c ∈ s := by
  intro pat
  induction pat with
  | nil => intro s _ c hc; exact absurd hc (List.not_mem_nil c)
  | cons p ps ih =>
    intro s h c hc
    cases s with
    | nil => cases h
    | cons a rest =>
      rw [hasPref, Bool.and_eq_true] at h
      obtain ⟨h1, h2⟩ := h
      rcases List.mem_cons.mp hc with rfl | hc
      · rw [of_decide_eq_true h1]
        exact List.mem_cons_self _ _
      · exact List.mem_cons_of_mem _ (ih rest h2 c hc)

lemma mem_of_hasSub : ∀ (s pat : Str), hasSub pat s = true → ∀ c ∈ pat, c ∈ s := by
  intro s
  induction s with
  | nil => intro pat h c hc; exact mem_of_hasPref pat [] h c hc
  | cons a rest ih =>
    intro pat h c hc
    rw [hasSub, Bool.or_eq_true] at h
    rcases h with h | h
    · exact mem_of_hasPref pat (a :: rest) h c hc
    · exact List.mem_cons_of_mem _ (ih pat h c hc)

lemma trimSpace_eq_nil_iff (l : Str) : trimSpace l = [] ↔ ∀ c ∈ l, isSpaceGo c := by
  rw [trimSpace, List.reverse_eq_nil_iff, List.dropWhile_eq_nil_iff]
  constructor
  · intro h c hc
    by_cases hcl : c ∈ l.dropWhile isSpaceGo
    · exact h c (List.mem_reverse.mpr hcl)
    · rcases (List.takeWhile_append_dropWhile (p := isSpaceGo) (l := l)) ▸ hc with hsplit
      rcases List.mem_append.mp hsplit with h2 | h2
      · exact List.mem_takeWhile_imp h2
      · exact absurd h2 hcl
  · intro h c hc
    exact h c ((List.dropWhile_suffix isSpaceGo).subset (List.mem_reverse.mp hc))

/-- A line containing the `yarn lockfile v1` marker is not blank. -/
lemma marker_line_not_blank (l : Str)
    (h : hasSub "yarn lockfile v1".toList l = true) : trimSpace l ≠ [] := by
  intro hb
  have hy : 'y' ∈ l := mem_of_hasSub l _ h 'y' (by decide)
  have := (trimSpace_eq_nil_iff l).mp hb 'y' hy
  simp [isSpaceGo] at this

/-- C6 counterexample: a yarn.lock whose first non-blank line is neither
the v1 marker nor `__metadata:` but where `__metadata:` appears later.
The claim classifies it as berry; the code returns classic (its
`// Default to classic if unsure` branch). -/
theorem claim_C6_counterexample :
    isYarnClassicLines ["foo:".toList, "__metadata:".toList] = true
    ∧ specYarnClassic ["foo:".toList, "__metadata:".toList] = false := by
  constructor <;> decide

/-- C6 (amended): the detection inspects only the first non-blank line: the
file is parsed as yarn-berry iff that line starts with `__metadata:` and
does not contain `yarn lockfile v1`; in every other case (including when
`__metadata:` only appears later) it is parsed as yarn-classic.  The
claim's rule is sound in one direction: whenever a non-blank marker line
precedes every `__metadata:` line, the code does classify classic. -/
theorem claim_C6_yarn_format_detection (lines : List Str) :
    (yarnFormat lines = "yarn-berry".toList ↔
      ∃ l, firstNonBlank lines = some l ∧
        hasPref "__metadata:".toList l = true ∧
        hasSub "yarn lockfile v1".toList l = false)
    ∧ (specYarnClassic lines = true → yarnFormat lines = "yarn-classic".toList) := by
  have hclassic : ∀ ls : List Str, isYarnClassicLines ls = false ↔
      ∃ l, firstNonBlank ls = some l ∧
        hasPref "__metadata:".toList l = true ∧
        hasSub "yarn lockfile v1".toList l = false := by
    intro ls
    induction ls with
    | nil => simp [isYarnClassicLines, firstNonBlank]
    | cons l rest ih =>
      by_cases hb : trimSpace l = []
      · rw [isYarnClassicLines, if_pos hb, firstNonBlank, if_pos hb]
        exact ih
      · rw [isYarnClassicLines, if_neg hb, firstNonBlank, if_neg hb]
        by_cases hm : hasSub "yarn lockfile v1".toList l = true
        · rw [if_pos hm]
          simp only [Bool.true_eq_false, false_iff]
          rintro ⟨l', hl', -, hmf⟩
          cases hl'
          rw [hm] at hmf
          cases hmf
        · rw [if_neg hm]
          by_cases hmd : hasPref "__metadata:".toList l = true
          · rw [if_pos hmd]
            simp only [true_iff]
            exact ⟨l, rfl, hmd, by simpa using hm⟩
          · rw [if_neg hmd]
            simp only [Bool.true_eq_false, false_iff]
            rintro ⟨l', hl', hmd', -⟩
            cases hl'
            exact hmd hmd'
  constructor
  · rw [yarnFormat]
    by_cases hc : isYarnClassicLines lines = true
    · rw [if_pos hc]
      constructor
      · intro h; exact absurd h (by decide)
      · intro h
        rw [← hclassic lines] at h
        rw [hc] at h
        cases h
    · rw [if_neg hc, ← hclassic lines]
      simp only [Bool.not_eq_true] at hc
      simp [hc]
  · intro hs
    rw [yarnFormat]
    suffices h : isYarnClassicLines lines = true by rw [if_pos h]
    induction lines with
    | nil => rfl
    | cons l rest ih =>
      rw [specYarnClassic] at hs
      by_cases hm : hasSub "yarn lockfile v1".toList l = true ∧ trimSpace l ≠ []
      · rw [isYarnClassicLines]
        by_cases hb : trimSpace l = []
        · exact absurd hb hm.2
        · rw [if_neg hb, if_pos hm.1]
      · rw [if_neg hm] at hs
        by_cases hmd : hasPref "__metadata:".toList l = true
        · rw [if_pos hmd] at hs
          cases hs
        · rw [if_neg hmd] at hs
          have hrest := ih hs
          rw [isYarnClassicLines]
          by_cases hb : trimSpace l = []
          · rw [if_pos hb]; exact hrest
          · rw [if_neg hb]
            by_cases hmk : hasSub "yarn lockfile v1".toList l = true
            · rw [if_pos hmk]
            · rw [if_neg hmk, if_neg hmd]

/-- A classic yarn.lock header used by the C6 witness. -/
def exYarnClassicFile : List Str :=
  ["# yarn lockfile v1".toList, [], "lodash@^4.17.0:".toList,
   "  version \"4.17.21\"".toList]

/-- Witness for C6: a real classic header is classified classic, and the
berry characterisation is decided at a concrete file. -/
theorem claim_C6_yarn_format_detection_witness :
    (yarnFormat exYarnClassicFile = "yarn-berry".toList ↔
      ∃ l, firstNonBlank exYarnClassicFile = some l ∧
        hasPref "__metadata:".toList l = true ∧
        hasSub "yarn lockfile v1".toList l = false)
    ∧ yarnFormat exYarnClassicFile = "yarn-classic".toList :=
  ⟨(claim_C6_yarn_format_detection exYarnClassicFile).1,
   (claim_C6_yarn_format_detection exYarnClassicFile).2 (by decide)⟩

/-! ### bun entry acceptance (claim C7) -/

/-- C7 counterexample: a `packages` value that is a bare JSON string is
rejected by the unmarshal step (the Go struct declares
`map[string][]json.RawMessage`), not accepted as a resolution. -/
theorem claim_C7_counterexample :
    parseBunPackages [("lodash".toList, Json.str "4.17.21".toList)] =
      Except.error "json: cannot unmarshal value into []json.RawMessage".toList := rfl

lemma takeWhile_append_stop (xs ys : Str) (h : ∀ c ∈ xs, c ≠ '@') :
    (xs ++ '@' :: ys).takeWhile (· ≠ '@') = xs := by
  induction xs with
  | nil => simp [List.takeWhile]
  | cons x rest ih =>
    have hx : x ≠ '@' := h x (List.mem_cons_self _ _)
    rw [List.cons_append, List.takeWhile_cons, if_pos (decide_eq_true hx)]
    rw [ih (fun c hc => h c (List.mem_cons_of_mem _ hc))]

/-- `afterLastAt` really is the text after the last `@`. -/
lemma afterLastAt_spec (u t : Str) (hnot : '@' ∉ t) :
    afterLastAt (u ++ '@' :: t) = t := by
  rw [afterLastAt, List.reverse_append, List.reverse_cons, List.append_assoc,
    List.singleton_append]
  rw [takeWhile_append_stop t.reverse u.reverse
    (fun c hc he => hnot (he ▸ List.mem_reverse.mp hc))]
  exact List.reverse_reverse t

/-- C7 (amended): a `packages` value must be a JSON array — a bare string
value makes the whole unmarshal fail (see the counterexample).  Each
element of the array is processed: a string element is a resolution, and
an array element contributes its first element as the resolution when
that is a string.  From a resolution the version is extracted verbatim
when it begins with a decimal digit, else as the substring after the last
`@`. -/
theorem claim_C7_bun_entry_values (pkgs : List (Str × Json)) (key : Str)
    (s : Str) (js : List Json) (u t : Str) (c0 : Char) (r0 : Str) :
    ((∃ deps, parseBunPackages pkgs = Except.ok deps) ↔
      ∀ e ∈ pkgs, ∃ es, e.2 = Json.arr es)
    ∧ parseBunEntry key (Json.str s) = (extractBunPackageName key, extractBunVersion s)
    ∧ parseBunEntry key (Json.arr (Json.str s :: js)) =
        (extractBunPackageName key, extractBunVersion s)
    ∧ ('0' ≤ c0 ∧ c0 ≤ '9' → extractBunVersion (c0 :: r0) = c0 :: r0)
    ∧ ((∀ c, (u ++ '@' :: t).head? = some c → ¬('0' ≤ c ∧ c ≤ '9')) → '@' ∉ t →
        extractBunVersion (u ++ '@' :: t) = t) := by
  refine ⟨?_, rfl, rfl, ?_, ?_⟩
  · constructor
    · rintro ⟨deps, hdeps⟩ e he
      rw [parseBunPackages] at hdeps
      cases hc : collectBunArrays pkgs with
      | none => rw [hc] at hdeps; cases hdeps
      | some entries =>
        clear hdeps
        induction pkgs generalizing entries with
        | nil => exact absurd he (List.not_mem_nil e)
        | cons p rest ih =>
          obtain ⟨k, v⟩ := p
          cases v with
          | arr es =>
            simp only [collectBunArrays] at hc
            rcases List.mem_cons.mp he with rfl | he2
            · exact ⟨es, rfl⟩
            · cases hr : collectBunArrays rest with
              | none => rw [hr] at hc; simp at hc
              | some entries' => exact ih he2 entries' hr
          | str s2 => simp [collectBunArrays] at hc
          | other => simp [collectBunArrays] at hc
    · intro h
      rw [parseBunPackages]
      suffices hc : ∃ entries, collectBunArrays pkgs = some entries by
        obtain ⟨entries, hc⟩ := hc
        rw [hc]
        exact ⟨_, rfl⟩
      induction pkgs with
      | nil => exact ⟨[], rfl⟩
      | cons p rest ih =>
        obtain ⟨es, hes⟩ := h p (List.mem_cons_self _ _)
        obtain ⟨entries', hr⟩ :=
          ih (fun e he => h e (List.mem_cons_of_mem _ he))
        obtain ⟨k, v⟩ := p
        simp only at hes
        subst hes
        rw [collectBunArrays, hr]
        exact ⟨_, rfl⟩
  · intro hd
    rw [extractBunVersion, if_pos hd]
  · intro hd hnot
    cases hu : u ++ '@' :: t with
    | nil => exact absurd hu (by simp)
    | cons c rest =>
      rw [extractBunVersion]
      rw [if_neg (hd c (by rw [hu]; rfl))]
      have hat : (c :: rest).contains '@' = true := by
        rw [← hu]
        exact List.elem_iff.mpr (List.mem_append.mpr (Or.inr (List.mem_cons_self _ _)))
      rw [if_pos hat, ← hu, afterLastAt_spec u t hnot]

/-- Witness for C7 at concrete packages and resolutions. -/
theorem claim_C7_bun_entry_values_witness :
    ((∃ deps, parseBunPackages
        [("lodash@4.17.21".toList, Json.arr [Json.str "lodash@4.17.21".toList])] =
        Except.ok deps) ↔
      ∀ e ∈ [("lodash@4.17.21".toList, Json.arr [Json.str "lodash@4.17.21".toList])],
        ∃ es, e.2 = Json.arr es)
    ∧ parseBunEntry "lodash@4.17.21".toList (Json.str "4.17.21".toList) =
        (extractBunPackageName "lodash@4.17.21".toList, extractBunVersion "4.17.21".toList)
    ∧ parseBunEntry "lodash@4.17.21".toList
        (Json.arr (Json.str "lodash@4.17.21".toList :: [])) =
        (extractBunPackageName "lodash@4.17.21".toList,
         extractBunVersion "lodash@4.17.21".toList)
    ∧ ('0' ≤ '4' ∧ '4' ≤ '9' → extractBunVersion "4.17.21".toList = "4.17.21".toList)
    ∧ ((∀ c, ("lodash".toList ++ '@' :: "4.17.21".toList).head? = some c →
          ¬('0' ≤ c ∧ c ≤ '9')) → '@' ∉ "4.17.21".toList →
        extractBunVersion ("lodash".toList ++ '@' :: "4.17.21".toList) = "4.17.21".toList) :=
  claim_C7_bun_entry_values
    [("lodash@4.17.21".toList, Json.arr [Json.str "lodash@4.17.21".toList])]
    "lodash@4.17.21".toList "4.17.21".toList [] "lodash".toList "4.17.21".toList
    '4' "4.17.21".toList.tail

/-! ### Lockfile discovery (src/unnamed/part_012) -/

/-- A filesystem node for the walk: name, readability (whether `lstat` /
reading it succeeds during the walk), and children for directories. -/
inductive FSNode where
  | file (name : Str) (readable : Bool)
  | dir (name : Str) (readable : Bool) (children : List FSNode)
  deriving Repr

/-- The node's base name. -/
def FSNode.name : FSNode → Str
  | .file n _ => n
  | .dir n _ _ => n

/-- `isLockfile` (part_012): the closed basename set. -/
def isLockfile (filename : Str) : Bool :=
  filename = "package-lock.json".toList || filename = "npm-shrinkwrap.json".toList ||
  filename = "yarn.lock".toList || filename = "pnpm-lock.yaml".toList ||
  filename = "bun.lock".toList || filename = "deno.lock".toList

/-- `shouldSkipDir` (part_012): `node_modules`, dot-directories, and (when
not recursive) every directory other than the root.  `isRoot` stands for
`path == rootDir`. -/
def shouldSkipDir (name : Str) (isRoot recursive : Bool) : Bool :=
  if name = "node_modules".toList then true
  else if name ≠ [] && name.headD ' ' = '.' then true
  else if !recursive && !isRoot then true
  else false

mutual
/-- `filepath.Walk`'s visit of one node inside `FindLockfiles` (part_012):
an unreadable node makes `walkFn` receive an error and return `nil`, so
the node and its subtree are skipped; a skipped directory is pruned; a
lockfile basename is collected with its path. -/
def walkNode (path : List Str) (isRoot recursive : Bool) : FSNode → List (List Str)
  | .file name readable =>
    if !readable then []
    else if isLockfile name then [path ++ [name]] else []
  | .dir name readable children =>
    if !readable then []
    else if shouldSkipDir name isRoot recursive then []
    else walkChildren (path ++ [name]) recursive children

/-- The walk over a directory's entries. -/
def walkChildren (path : List Str) (recursive : Bool) : List FSNode → List (List Str)
  | [] => []
  | child :: rest =>
    walkNode path false recursive child ++ walkChildren path recursive rest
end

/-- `FindLockfiles` (part_012): `os.Stat` first (`none` models a root that
does not exist), a non-directory root is an error, then the walk. -/
def FindLockfiles (root : Option FSNode) (recursive : Bool) :
    Except Str (List (List Str)) :=
  match root with
  | none => Except.error "no such file or directory".toList
  | some (.file _ _) => Except.error "path is not a directory".toList
  | some (.dir name readable children) =>
    Except.ok (walkNode [] true recursive (.dir name readable children))

mutual
/-- Deleting unreadable subtrees: what the result of the walk can see. -/
def pruneNode : FSNode → Option FSNode
  | .file n r => if r then some (.file n r) else none
  | .dir n r children => if r then some (.dir n r (pruneChildren children)) else none

/-- `pruneNode` over a list of children. -/
def pruneChildren : List FSNode → List FSNode
  | [] => []
  | c :: rest =>
    match pruneNode c with
    | some c' => c' :: pruneChildren rest
    | none => pruneChildren rest
end

mutual
/-- The walk never sees an unreadable subtree: walking a tree equals
walking the tree with all unreadable nodes deleted. -/
lemma walkNode_prune (path : List Str) (isRoot recursive : Bool) :
    ∀ node : FSNode,
      walkNode path isRoot recursive node =
        (match pruneNode node with
         | some node' => walkNode path isRoot recursive node'
         | none => [])
  | .file n r => by
    cases r with
    | false => rfl
    | true => rfl
  | .dir n r children => by
    cases r with
    | false => rfl
    | true =>
      rw [pruneNode]
      simp only [if_pos rfl]
      by_cases hs : shouldSkipDir n isRoot recursive = true
      · simp [walkNode, hs]
      · simp [walkNode, hs]
        exact walkChildren_prune (path ++ [n]) recursive children

/-- `walkNode_prune` over a directory's entries. -/
lemma walkChildren_prune (path : List Str) (recursive : Bool) :
    ∀ children : List FSNode,
      walkChildren path recursive children =
        walkChildren path recursive (pruneChildren children)
  | [] => rfl
  | c :: rest => by
    rw [walkChildren, pruneChildren]
    cases hp : pruneNode c with
    | some c' =>
      rw [walkChildren]
      rw [walkNode_prune path false recursive c, hp]
      rw [walkChildren_prune path recursive rest]
    | none =>
      rw [walkNode_prune path false recursive c, hp]
      rw [List.nil_append]
      exact walkChildren_prune path recursive rest
end

/-- C9: discovery fails with an input error when the root does not exist or
is not a directory, while unreadable files and directories encountered
during the walk of an existing root are skipped without aborting discovery
and without appearing in the result (walking the tree equals walking the
tree with its unreadable subtrees deleted). -/
theorem claim_C9_discovery_errors (recursive : Bool) (fname : Str) (fr : Bool)
    (dname : Str) (dreadable : Bool) (children : List FSNode) :
    FindLockfiles none recursive =
      Except.error "no such file or directory".toList
    ∧ FindLockfiles (some (.file fname fr)) recursive =
      Except.error "path is not a directory".toList
    ∧ (∃ paths, FindLockfiles (some (.dir dname dreadable children)) recursive =
        Except.ok paths)
    ∧ FindLockfiles (some (.dir dname dreadable children)) recursive =
        (match pruneNode (.dir dname dreadable children) with
         | some node' => Except.ok (walkNode [] true recursive node')
         | none => Except.ok []) := by
  refine ⟨rfl, rfl, ⟨_, rfl⟩, ?_⟩
  rw [FindLockfiles]
  rw [walkNode_prune [] true recursive (.dir dname dreadable children)]
  cases hp : pruneNode (.dir dname dreadable children) <;> rfl

/-- Witness for C9: a root with a readable lockfile, an unreadable
lockfile, and an unreadable subdirectory holding a lockfile — only the
readable one is found, and discovery still succeeds. -/
theorem claim_C9_discovery_errors_witness :
    FindLockfiles none true = Except.error "no such file or directory".toList
    ∧ FindLockfiles (some (.file "yarn.lock".toList true)) true =
      Except.error "path is not a directory".toList
    ∧ (∃ paths, FindLockfiles (some (.dir "proj".toList true
        [.file "yarn.lock".toList true,
         .file "bun.lock".toList false,
         .dir "sub".toList false [.file "deno.lock".toList true]])) true =
        Except.ok paths)
    ∧ FindLockfiles (some (.dir "proj".toList true
        [.file "yarn.lock".toList true,
         .file "bun.lock".toList false,
         .dir "sub".toList false [.file "deno.lock".toList true]])) true =
        (match pruneNode (.dir "proj".toList true
          [.file "yarn.lock".toList true,
           .file "bun.lock".toList false,
           .dir "sub".toList false [.file "deno.lock".toList true]]) with
         | some node' => Except.ok (walkNode [] true true node')
         | none => Except.ok []) :=
  claim_C9_discovery_errors true "yarn.lock".toList true "proj".toList true
    [.file "yarn.lock".toList true,
     .file "bun.lock".toList false,
     .dir "sub".toList false [.file "deno.lock".toList true]]

/-- C10: when the root directory's own base name is `node_modules` or
begins with `.` (including the default scan path `.`), the pruning rules
apply to the root itself and discovery returns an empty list, for either
value of the recursive flag and regardless of the root's contents. -/
theorem claim_C10_root_pruned (name : Str) (readable : Bool)
    (children : List FSNode) (recursive : Bool)
    (h : name = "node_modules".toList ∨ (name ≠ [] ∧ name.headD ' ' = '.')) :
    FindLockfiles (some (.dir name readable children)) recursive = Except.ok [] := by
  rw [FindLockfiles, walkNode]
  cases readable with
  | false => rfl
  | true =>
    have hs : shouldSkipDir name true recursive = true := by
      rw [shouldSkipDir]
      rcases h with h | ⟨h1, h2⟩
      · rw [if_pos h]
      · by_cases hn : name = "node_modules".toList
        · rw [if_pos hn]
        · rw [if_neg hn, if_pos]
          rw [Bool.and_eq_true, decide_eq_true_eq]
          exact ⟨by simpa using h1, by simpa using h2⟩
    rw [if_neg (by simp), if_pos hs]

/-- Witness for C10: scanning the default path `.` — a dot-named root
holding a lockfile — returns nothing. -/
theorem claim_C10_root_pruned_witness :
    FindLockfiles (some (.dir ".".toList true
      [.file "package-lock.json".toList true])) true = Except.ok []
    ∧ FindLockfiles (some (.dir "node_modules".toList true
      [.file "package-lock.json".toList true])) false = Except.ok [] :=
  ⟨claim_C10_root_pruned ".".toList true [.file "package-lock.json".toList true] true
      (Or.inr (by decide)),
   claim_C10_root_pruned "node_modules".toList true
      [.file "package-lock.json".toList true] false (Or.inl rfl)⟩

/-! ### JSONC stripper (internal/jsonc/jsonc.go, claim C8) -/

/-- `parserState` (jsonc.go). -/
inductive ParserState where
  | normal
  | strState
  | singleComment
  | multiComment
  deriving Repr, DecidableEq

/-- The byte loop of `jsoncParser.parse` (jsonc.go): each step is one
`handleNormal` / `handleString` / `handleSingleComment` /
`handleMultiComment` call, consuming one byte (two for an escape pair, a
comment opener, or a comment closer). -/
def parseGo : List Char → ParserState → List Char
  | [], _ => []
  | c :: d :: rest2, .strState =>
    if c = '\\' then c :: d :: parseGo rest2 .strState
    else if c = '"' then c :: parseGo (d :: rest2) .normal
    else c :: parseGo (d :: rest2) .strState
  | [c], .strState => [c]
  | c :: d :: rest2, .singleComment =>
    if c = '\n' then '\n' :: parseGo (d :: rest2) .normal
    else parseGo (d :: rest2) .singleComment
  | [c], .singleComment => if c = '\n' then ['\n'] else []
  | c :: d :: rest2, .multiComment =>
    if c = '*' ∧ d = '/' then parseGo rest2 .normal
    else parseGo (d :: rest2) .multiComment
  | [_], .multiComment => []
  | c :: d :: rest2, .normal =>
    if c = '"' then c :: parseGo (d :: rest2) .strState
    else if c = '/' ∧ d = '/' then parseGo rest2 .singleComment
    else if c = '/' ∧ d = '*' then parseGo rest2 .multiComment
    else c :: parseGo (d :: rest2) .normal
  | [c], .normal => [c]

/-- `isWhitespace` (jsonc.go). -/
def isWhitespaceGo (c : Char) : Bool :=
  c = ' ' || c = '\t' || c = '\n' || c = '\r'

/-- `isTrailingComma` (jsonc.go): scan forward from the position after the
comma — only whitespace may intervene before `]` or `}`. -/
def isTrailingCommaAux : List Char → Bool
  | [] => false
  | c :: rest => if isWhitespaceGo c then isTrailingCommaAux rest else (c = ']' || c = '}')

/-- The `inString` update of `stripTrailingCommas` (jsonc.go): toggle at
a quote not escaped by an odd run of backslashes (`isEscaped`). -/
def stripInString (c : Char) (bs : Nat) (inString : Bool) : Bool :=
  if c = '"' ∧ bs % 2 = 0 then !inString else inString

/-- The running count of consecutive backslashes immediately before the
current position (what `isEscaped` computes by scanning backwards). -/
def stripBS (c : Char) (bs : Nat) : Nat :=
  if c = '\\' then bs + 1 else 0

/-- The loop of `stripTrailingCommas` (jsonc.go): a comma outside a string
followed only by whitespace before `]` or `}` is dropped. -/
def stripTCGo : List Char → Bool → Nat → List Char
  | [], _, _ => []
  | c :: rest, inString, bs =>
    if ¬ stripInString c bs inString = true ∧ c = ',' ∧ isTrailingCommaAux rest = true then
      stripTCGo rest (stripInString c bs inString) (stripBS c bs)
    else c :: stripTCGo rest (stripInString c bs inString) (stripBS c bs)

/-- `stripTrailingCommas` (jsonc.go). -/
def stripTrailingCommas (data : List Char) : List Char := stripTCGo data false 0

/-- `StripComments` (jsonc.go). -/
def StripComments (data : List Char) : List Char :=
  stripTrailingCommas (parseGo data .normal)

/-- The string literals of a byte sequence: the maximal double-quote
delimited regions outside comments, read by the same automaton as the
parser; `acc` is the (reversed) content of the region being read. -/
def stringRegions : List Char → ParserState → Str → List Str
  | [], .strState, acc => [acc.reverse]
  | [], _, _ => []
  | c :: d :: rest2, .strState, acc =>
    if c = '\\' then stringRegions rest2 .strState (d :: c :: acc)
    else if c = '"' then acc.reverse :: stringRegions (d :: rest2) .normal []
    else stringRegions (d :: rest2) .strState (c :: acc)
  | [c], .strState, acc =>
    if c = '"' then [acc.reverse] else [(c :: acc).reverse]
  | c :: d :: rest2, .singleComment, acc =>
    if c = '\n' then stringRegions (d :: rest2) .normal acc
    else stringRegions (d :: rest2) .singleComment acc
  | [_], .singleComment, _ => []
  | c :: d :: rest2, .multiComment, acc =>
    if c = '*' ∧ d = '/' then stringRegions rest2 .normal acc
    else stringRegions (d :: rest2) .multiComment acc
  | [_], .multiComment, _ => []
  | c :: d :: rest2, .normal, acc =>
    if c = '"' then stringRegions (d :: rest2) .strState []
    else if c = '/' ∧ d = '/' then stringRegions rest2 .singleComment acc
    else if c = '/' ∧ d = '*' then stringRegions rest2 .multiComment acc
    else stringRegions (d :: rest2) .normal acc
  | [c], .normal, acc => if c = '"' then [[]] else []

/-- The string literals of the input, scanned from the initial state. -/
def strLits (data : List Char) : List Str := stringRegions data .normal []

/-- C8 counterexample: `,,]` strips to `,]`, which a second pass strips to
`]` — `StripComments` is not idempotent; and in `\",]\"` the
trailing-comma pass misreads the string boundary (the quote after the
backslash) and deletes a comma from inside a string literal. -/
theorem claim_C8_counterexample :
    StripComments (StripComments ",,]".toList) ≠ StripComments ",,]".toList
    ∧ strLits (StripComments "\\\",]\"".toList) ≠ strLits "\\\",]\"".toList := by
  constructor <;> decide

/-- In normal state, a byte other than `/` is always written first. -/
lemma parseGo_normal_head (d : Char) (r : List Char) (hd : d ≠ '/') :
    ∃ t, parseGo (d :: r) .normal = d :: t := by
  cases r with
  | nil => exact ⟨[], rfl⟩
  | cons e r2 =>
    by_cases h1 : d = '"'
    · subst h1
      exact ⟨_, by rw [parseGo, if_pos rfl]⟩
    · exact ⟨parseGo (e :: r2) .normal, by
        rw [parseGo, if_neg h1, if_neg (fun h => hd h.1), if_neg (fun h => hd h.1)]⟩

/-- The comment-stripping pass is idempotent, from any of its states (a
second scan of its output reproduces the output byte for byte). -/
lemma parseGo_idem : ∀ (n : Nat) (x : List Char), x.length ≤ n →
    parseGo (parseGo x .normal) .normal = parseGo x .normal
    ∧ parseGo (parseGo x .strState) .strState = parseGo x .strState
    ∧ parseGo (parseGo x .singleComment) .normal = parseGo x .singleComment
    ∧ parseGo (parseGo x .multiComment) .normal = parseGo x .multiComment := by
  intro n
  induction n with
  | zero =>
    intro x hx
    have hnil : x = [] := List.eq_nil_of_length_eq_zero (Nat.le_zero.mp hx)
    subst hnil
    exact ⟨rfl, rfl, rfl, rfl⟩
  | succ n ihn =>
    intro x hx
    match x with
    | [] => exact ⟨rfl, rfl, rfl, rfl⟩
    | [c] =>
      refine ⟨rfl, rfl, ?_, rfl⟩
      by_cases h : c = '\n'
      · subst h; rfl
      · rw [show parseGo [c] .singleComment = [] from by rw [parseGo, if_neg h]]
        rfl
    | c :: d :: rest2 =>
      have hdr : (d :: rest2).length ≤ n := by
        simp only [List.length_cons] at hx ⊢
        omega
      have hr2 : rest2.length ≤ n := by
        simp only [List.length_cons] at hx
        omega
      refine ⟨?_, ?_, ?_, ?_⟩
      · by_cases h1 : c = '"'
        · subst h1
          rw [show parseGo ('"' :: d :: rest2) .normal =
              '"' :: parseGo (d :: rest2) .strState from by rw [parseGo, if_pos rfl]]
          cases hs : parseGo (d :: rest2) .strState with
          | nil => rfl
          | cons e t =>
            rw [parseGo, if_pos rfl]
            have hih := (ihn (d :: rest2) hdr).2.1
            rw [hs] at hih
            rw [hih]
        · by_cases h2 : c = '/' ∧ d = '/'
          · obtain ⟨rfl, rfl⟩ := h2
            rw [show parseGo ('/' :: '/' :: rest2) .normal = parseGo rest2 .singleComment
              from by rw [parseGo]; simp]
            exact (ihn rest2 hr2).2.2.1
          · by_cases h3 : c = '/' ∧ d = '*'
            · obtain ⟨rfl, rfl⟩ := h3
              rw [show parseGo ('/' :: '*' :: rest2) .normal = parseGo rest2 .multiComment
                from by rw [parseGo]; simp]
              exact (ihn rest2 hr2).2.2.2
            · rw [show parseGo (c :: d :: rest2) .normal = c :: parseGo (d :: rest2) .normal
                from by rw [parseGo, if_neg h1, if_neg h2, if_neg h3]]
              by_cases hc : c = '/'
              · subst hc
                have hd : d ≠ '/' := fun h => h2 ⟨rfl, h⟩
                have hdstar : d ≠ '*' := fun h => h3 ⟨rfl, h⟩
                obtain ⟨t, ht⟩ := parseGo_normal_head d rest2 hd
                rw [ht, parseGo, if_neg (show ¬('/' : Char) = '"' by decide),
                  if_neg (fun h => hd h.2), if_neg (fun h => hdstar h.2)]
                have hih := (ihn (d :: rest2) hdr).1
                rw [ht] at hih
                rw [hih]
              · cases hs : parseGo (d :: rest2) .normal with
                | nil => rfl
                | cons e t =>
                  rw [parseGo, if_neg h1, if_neg (fun (h : c = '/' ∧ e = '/') => hc h.1),
                    if_neg (fun (h : c = '/' ∧ e = '*') => hc h.1)]
                  have hih := (ihn (d :: rest2) hdr).1
                  rw [hs] at hih
                  rw [hih]
      · by_cases h1 : c = '\\'
        · subst h1
          rw [show parseGo ('\\' :: d :: rest2) .strState =
              '\\' :: d :: parseGo rest2 .strState from by rw [parseGo, if_pos rfl]]
          rw [show ∀ t, parseGo ('\\' :: d :: t) .strState = '\\' :: d :: parseGo t .strState
            from fun t => by rw [parseGo, if_pos rfl]]
          rw [(ihn rest2 hr2).2.1]
        · by_cases h2 : c = '"'
          · subst h2
            rw [show parseGo ('"' :: d :: rest2) .strState =
                '"' :: parseGo (d :: rest2) .normal from by
              rw [parseGo, if_neg (show ¬('"' : Char) = '\\' by decide), if_pos rfl]]
            cases hs : parseGo (d :: rest2) .normal with
            | nil => rfl
            | cons e t =>
              rw [parseGo, if_neg (show ¬('"' : Char) = '\\' by decide), if_pos rfl]
              have hih := (ihn (d :: rest2) hdr).1
              rw [hs] at hih
              rw [hih]
          · rw [show parseGo (c :: d :: rest2) .strState = c :: parseGo (d :: rest2) .strState
              from by rw [parseGo, if_neg h1, if_neg h2]]
            cases hs : parseGo (d :: rest2) .strState with
            | nil => rfl
            | cons e t =>
              rw [parseGo, if_neg h1, if_neg h2]
              have hih := (ihn (d :: rest2) hdr).2.1
              rw [hs] at hih
              rw [hih]
      · by_cases h1 : c = '\n'
        · subst h1
          rw [show parseGo ('\n' :: d :: rest2) .singleComment =
              '\n' :: parseGo (d :: rest2) .normal from by rw [parseGo, if_pos rfl]]
          cases hs : parseGo (d :: rest2) .normal with
          | nil => rfl
          | cons e t =>
            rw [parseGo, if_neg (show ¬('\n' : Char) = '"' by decide),
              if_neg (fun (h : ('\n' : Char) = '/' ∧ e = '/') => by cases h.1),
              if_neg (fun (h : ('\n' : Char) = '/' ∧ e = '*') => by cases h.1)]
            have hih := (ihn (d :: rest2) hdr).1
            rw [hs] at hih
            rw [hih]
        · rw [show parseGo (c :: d :: rest2) .singleComment =
            parseGo (d :: rest2) .singleComment from by rw [parseGo, if_neg h1]]
          exact (ihn (d :: rest2) hdr).2.2.1
      · by_cases h1 : c = '*' ∧ d = '/'
        · obtain ⟨rfl, rfl⟩ := h1
          rw [show parseGo ('*' :: '/' :: rest2) .multiComment = parseGo rest2 .normal
            from by rw [parseGo]; simp]
          exact (ihn rest2 hr2).1
        · rw [show parseGo (c :: d :: rest2) .multiComment =
            parseGo (d :: rest2) .multiComment from by rw [parseGo, if_neg h1]]
          exact (ihn (d :: rest2) hdr).2.2.2

/-- Unfolding of `parseGo` in normal state for a non-slash head. -/
lemma parseGo_normal_cons (c : Char) (r : List Char) (hc : c ≠ '/') :
    parseGo (c :: r) .normal =
      if c = '"' then c :: parseGo r .strState else c :: parseGo r .normal := by
  cases r with
  | nil => by_cases h : c = '"' <;> simp [parseGo, h]
  | cons d r2 =>
    by_cases h : c = '"'
    · rw [parseGo, if_pos h, if_pos h]
    · rw [parseGo, if_neg h, if_neg (fun hh => hc hh.1), if_neg (fun hh => hc hh.1), if_neg h]

/-- Unfolding of `parseGo` in string state for a non-backslash head. -/
lemma parseGo_str_cons (c : Char) (r : List Char) (hc : c ≠ '\\') :
    parseGo (c :: r) .strState =
      if c = '"' then c :: parseGo r .normal else c :: parseGo r .strState := by
  cases r with
  | nil => by_cases h : c = '"' <;> simp [parseGo, h]
  | cons d r2 =>
    by_cases h : c = '"' <;> simp [parseGo, hc, h]

/-- Unfolding of `stringRegions` in normal state for a non-slash head. -/
lemma stringRegions_normal_cons (c : Char) (r : List Char) (acc : Str) (hc : c ≠ '/') :
    stringRegions (c :: r) .normal acc =
      if c = '"' then stringRegions r .strState []
      else stringRegions r .normal acc := by
  cases r with
  | nil => by_cases h : c = '"' <;> simp [stringRegions, h]
  | cons d r2 =>
    by_cases h : c = '"'
    · rw [stringRegions, if_pos h, if_pos h]
    · rw [stringRegions, if_neg h, if_neg (fun hh => hc hh.1),
        if_neg (fun hh => hc hh.1), if_neg h]

/-- Unfolding of `stringRegions` in string state for a non-backslash head. -/
lemma stringRegions_str_cons (c : Char) (r : List Char) (acc : Str) (hc : c ≠ '\\') :
    stringRegions (c :: r) .strState acc =
      if c = '"' then acc.reverse :: stringRegions r .normal []
      else stringRegions r .strState (c :: acc) := by
  cases r with
  | nil => by_cases h : c = '"' <;> simp [stringRegions, h]
  | cons d r2 =>
    by_cases h : c = '"' <;> simp [stringRegions, hc, h]

/-- A slash-free byte sequence is a fixed point of the comment stripper. -/
lemma parseGo_id_of_no_slash_aux :
    ∀ (n : Nat) (z : List Char), z.length ≤ n → '/' ∉ z →
      parseGo z .normal = z ∧ parseGo z .strState = z := by
  intro n
  induction n with
  | zero =>
    intro z hz _
    have hnil : z = [] := List.eq_nil_of_length_eq_zero (Nat.le_zero.mp hz)
    subst hnil
    exact ⟨rfl, rfl⟩
  | succ n ihn =>
    intro z hlen hz
    match z, hlen with
    | [], _ => exact ⟨rfl, rfl⟩
    | c :: rest, hlen =>
      have hc : c ≠ '/' := fun h => hz (h ▸ List.mem_cons_self _ _)
      have hrest : '/' ∉ rest := fun h => hz (List.mem_cons_of_mem _ h)
      have hrlen : rest.length ≤ n := by
        simp only [List.length_cons] at hlen
        omega
      obtain ⟨ihN, ihS⟩ := ihn rest hrlen hrest
      constructor
      · rw [parseGo_normal_cons c rest hc]
        by_cases h : c = '"' <;> simp [h, ihN, ihS]
      · by_cases hb : c = '\\'
        · subst hb
          cases rest with
          | nil => rfl
          | cons d r2 =>
            rw [parseGo, if_pos rfl]
            have hr2 : '/' ∉ r2 := fun h => hrest (List.mem_cons_of_mem _ h)
            have hr2len : r2.length ≤ n := by
              simp only [List.length_cons] at hrlen
              omega
            rw [(ihn r2 hr2len hr2).2]
        · rw [parseGo_str_cons c rest hb]
          by_cases h : c = '"' <;> simp [h, ihN, ihS]

/-- A slash-free byte sequence is a fixed point of the comment stripper. -/
lemma parseGo_id_of_no_slash (z : List Char) (hz : '/' ∉ z) :
    parseGo z .normal = z ∧ parseGo z .strState = z :=
  parseGo_id_of_no_slash_aux z.length z le_rfl hz

/-- `stripTrailingCommas` only deletes bytes. -/
lemma mem_of_mem_stripTCGo :
    ∀ (l : List Char) (s : Bool) (bs : Nat) (c : Char),
      c ∈ stripTCGo l s bs → c ∈ l := by
  intro l
  induction l with
  | nil => intro s bs c h; exact absurd h (List.not_mem_nil c)
  | cons a rest ih =>
    intro s bs c h
    rw [stripTCGo] at h
    split at h
    · exact List.mem_cons_of_mem _ (ih _ _ c h)
    · rcases List.mem_cons.mp h with rfl | h2
      · exact List.mem_cons_self _ _
      · exact List.mem_cons_of_mem _ (ih _ _ c h2)

/-- Next non-whitespace byte is a comma. -/
def nextNonWsIsComma : List Char → Bool
  | [] => false
  | c :: rest => if isWhitespaceGo c then nextNonWsIsComma rest else c = ','

/-- Two commas separated only by whitespace occur somewhere. -/
def commaCascade : List Char → Bool
  | [] => false
  | c :: rest => (c = ',' && nextNonWsIsComma rest) || commaCascade rest

/-- Removing commas never turns a non-trailing position into a trailing
one, provided the next non-whitespace byte is not itself a comma. -/
lemma isTrailingCommaAux_stripTCGo :
    ∀ (rest : List Char) (s : Bool) (bs : Nat),
      isTrailingCommaAux rest = false → nextNonWsIsComma rest = false →
      isTrailingCommaAux (stripTCGo rest s bs) = false := by
  intro rest
  induction rest with
  | nil => intro s bs _ _; rfl
  | cons c r ih =>
    intro s bs ha hn
    by_cases hw : isWhitespaceGo c = true
    · have hcc : c ≠ ',' := by
        intro h
        subst h
        simp [isWhitespaceGo] at hw
      rw [isTrailingCommaAux, if_pos hw] at ha
      rw [nextNonWsIsComma, if_pos hw] at hn
      rw [stripTCGo, if_neg (fun hh => hcc hh.2.1)]
      rw [isTrailingCommaAux, if_pos hw]
      exact ih _ _ ha hn
    · rw [isTrailingCommaAux, if_neg hw] at ha
      rw [nextNonWsIsComma, if_neg hw] at hn
      have hcc : c ≠ ',' := by simpa using hn
      rw [stripTCGo, if_neg (fun hh => hcc hh.2.1)]
      rw [isTrailingCommaAux, if_neg hw]
      exact ha

/-- The trailing-comma pass is idempotent on backslash-free input without
whitespace-adjacent comma pairs. -/
lemma stripTCGo_idem :
    ∀ (z : List Char) (s : Bool), '\\' ∉ z → commaCascade z = false →
      stripTCGo (stripTCGo z s 0) s 0 = stripTCGo z s 0 := by
  intro z
  induction z with
  | nil => intro s _ _; rfl
  | cons c rest ih =>
    intro s hb hcas
    have hcb : c ≠ '\\' := fun h => hb (h ▸ List.mem_cons_self _ _)
    have hbrest : '\\' ∉ rest := fun h => hb (List.mem_cons_of_mem _ h)
    rw [commaCascade, Bool.or_eq_false_iff] at hcas
    obtain ⟨hcas1, hcas2⟩ := hcas
    have hbs : stripBS c 0 = 0 := by rw [stripBS, if_neg hcb]
    by_cases hrem : ¬ stripInString c 0 s = true ∧ c = ',' ∧ isTrailingCommaAux rest = true
    · have hss : stripInString c 0 s = s := by
        rw [stripInString, if_neg]
        rintro ⟨h1, -⟩
        rw [hrem.2.1] at h1
        cases h1
      rw [stripTCGo, if_pos hrem, hss, hbs]
      exact ih s hbrest hcas2
    · rw [stripTCGo, if_neg hrem, hbs]
      by_cases hcc : c = ','
      · have hss : stripInString c 0 s = s := by
          rw [stripInString, if_neg]
          rintro ⟨h1, -⟩
          rw [hcc] at h1
          cases h1
        rw [hss]
        by_cases hin : s = true
        · have hcond : ¬(¬ stripInString c 0 s = true ∧ c = ',' ∧
              isTrailingCommaAux (stripTCGo rest s 0) = true) := by
            rintro ⟨h1, -, -⟩
            exact h1 (hss.trans hin)
          rw [stripTCGo, if_neg hcond, hss, hbs]
          rw [ih s hbrest hcas2]
        · have haux : isTrailingCommaAux rest = false := by
            by_cases h : isTrailingCommaAux rest = true
            · exact absurd ⟨fun hh => hin (hss.symm.trans hh), hcc, h⟩ hrem
            · simpa using h
          have hnext : nextNonWsIsComma rest = false := by
            by_cases h : nextNonWsIsComma rest = true
            · rw [hcc] at hcas1
              simp [h] at hcas1
            · simpa using h
          have htc := isTrailingCommaAux_stripTCGo rest s 0 haux hnext
          have hcond : ¬(¬ stripInString c 0 s = true ∧ c = ',' ∧
              isTrailingCommaAux (stripTCGo rest s 0) = true) := by
            rintro ⟨-, -, h3⟩
            rw [htc] at h3
            cases h3
          rw [stripTCGo, if_neg hcond, hss, hbs]
          rw [ih s hbrest hcas2]
      · have hcond : ¬(¬ stripInString c 0 s = true ∧ c = ',' ∧
            isTrailingCommaAux (stripTCGo rest (stripInString c 0 s) 0) = true) := by
          rintro ⟨-, h2, -⟩
          exact hcc h2
        rw [stripTCGo, if_neg hcond, hbs]
        rw [ih (stripInString c 0 s) hbrest hcas2]

/-- Comment-freeness: the byte sequence holds no `//` or `/*` outside a
string region (second argument: the in-string flag of the scan). -/
def noComS : List Char → Bool → Bool
  | [], _ => true
  | [_], _ => true
  | c :: d :: rest, false =>
    if c = '"' then noComS (d :: rest) true
    else if c = '/' then
      if d = '/' ∨ d = '*' then false else noComS (d :: rest) false
    else noComS (d :: rest) false
  | c :: d :: rest, true =>
    if c = '\\' then noComS rest true
    else if c = '"' then noComS (d :: rest) false
    else noComS (d :: rest) true

/-- Unfolding of `noComS` outside strings for an ordinary head. -/
lemma noComS_cons_code (c : Char) (t : List Char) (h1 : c ≠ '"') (h2 : c ≠ '/') :
    noComS (c :: t) false = noComS t false := by
  cases t with
  | nil => rfl
  | cons d r => rw [noComS, if_neg h1, if_neg h2]

/-- Unfolding of `noComS` at an opening quote. -/
lemma noComS_quote_code (t : List Char) : noComS ('"' :: t) false = noComS t true := by
  cases t with
  | nil => rfl
  | cons d r => rw [noComS, if_pos rfl]

/-- Unfolding of `noComS` inside a string for an ordinary head. -/
lemma noComS_cons_str (c : Char) (t : List Char) (h1 : c ≠ '\\') (h2 : c ≠ '"') :
    noComS (c :: t) true = noComS t true := by
  cases t with
  | nil => rfl
  | cons d r => rw [noComS, if_neg h1, if_neg h2]

/-- Unfolding of `noComS` at a closing quote. -/
lemma noComS_quote_str (t : List Char) : noComS ('"' :: t) true = noComS t false := by
  cases t with
  | nil => rfl
  | cons d r => rw [noComS, if_neg (show ¬('"' : Char) = '\\' by decide), if_pos rfl]

/-- The comment pass emits comment-free output, from any state. -/
lemma noComS_parseGo : ∀ (n : Nat) (x : List Char), x.length ≤ n →
    noComS (parseGo x .normal) false = true
    ∧ noComS (parseGo x .strState) true = true
    ∧ noComS (parseGo x .singleComment) false = true
    ∧ noComS (parseGo x .multiComment) false = true := by
  intro n
  induction n with
  | zero =>
    intro x hx
    have hnil : x = [] := List.eq_nil_of_length_eq_zero (Nat.le_zero.mp hx)
    subst hnil
    exact ⟨rfl, rfl, rfl, rfl⟩
  | succ n ihn =>
    intro x hx
    match x with
    | [] => exact ⟨rfl, rfl, rfl, rfl⟩
    | [c] =>
      refine ⟨rfl, rfl, ?_, rfl⟩
      by_cases h : c = '\n'
      · subst h; rfl
      · rw [show parseGo [c] .singleComment = [] from by rw [parseGo, if_neg h]]
        rfl
    | c :: d :: rest2 =>
      have hdr : (d :: rest2).length ≤ n := by
        simp only [List.length_cons] at hx ⊢
        omega
      have hr2 : rest2.length ≤ n := by
        simp only [List.length_cons] at hx
        omega
      refine ⟨?_, ?_, ?_, ?_⟩
      · by_cases h1 : c = '"'
        · subst h1
          rw [show parseGo ('"' :: d :: rest2) .normal =
              '"' :: parseGo (d :: rest2) .strState from by rw [parseGo, if_pos rfl]]
          rw [noComS_quote_code]
          exact (ihn (d :: rest2) hdr).2.1
        · by_cases h2 : c = '/' ∧ d = '/'
          · obtain ⟨rfl, rfl⟩ := h2
            rw [show parseGo ('/' :: '/' :: rest2) .normal = parseGo rest2 .singleComment
              from by rw [parseGo]; simp]
            exact (ihn rest2 hr2).2.2.1
          · by_cases h3 : c = '/' ∧ d = '*'
            · obtain ⟨rfl, rfl⟩ := h3
              rw [show parseGo ('/' :: '*' :: rest2) .normal = parseGo rest2 .multiComment
                from by rw [parseGo]; simp]
              exact (ihn rest2 hr2).2.2.2
            · rw [show parseGo (c :: d :: rest2) .normal = c :: parseGo (d :: rest2) .normal
                from by rw [parseGo, if_neg h1, if_neg h2, if_neg h3]]
              by_cases hc : c = '/'
              · subst hc
                have hd1 : d ≠ '/' := fun h => h2 ⟨rfl, h⟩
                have hd2 : d ≠ '*' := fun h => h3 ⟨rfl, h⟩
                obtain ⟨t, ht⟩ := parseGo_normal_head d rest2 hd1
                rw [ht]
                rw [show noComS ('/' :: d :: t) false = noComS (d :: t) false from by
                  rw [noComS, if_neg (show ¬('/' : Char) = '"' by decide), if_pos rfl,
                    if_neg (fun hh => hh.elim hd1 hd2)]]
                have hih := (ihn (d :: rest2) hdr).1
                rw [ht] at hih
                exact hih
              · rw [noComS_cons_code c _ h1 hc]
                exact (ihn (d :: rest2) hdr).1
      · by_cases h1 : c = '\\'
        · subst h1
          rw [show parseGo ('\\' :: d :: rest2) .strState =
              '\\' :: d :: parseGo rest2 .strState from by rw [parseGo, if_pos rfl]]
          rw [show noComS ('\\' :: d :: parseGo rest2 .strState) true =
              noComS (parseGo rest2 .strState) true from by rw [noComS, if_pos rfl]]
          exact (ihn rest2 hr2).2.1
        · by_cases h2 : c = '"'
          · subst h2
            rw [show parseGo ('"' :: d :: rest2) .strState =
                '"' :: parseGo (d :: rest2) .normal from by
              rw [parseGo, if_neg (show ¬('"' : Char) = '\\' by decide), if_pos rfl]]
            rw [noComS_quote_str]
            exact (ihn (d :: rest2) hdr).1
          · rw [show parseGo (c :: d :: rest2) .strState = c :: parseGo (d :: rest2) .strState
              from by rw [parseGo, if_neg h1, if_neg h2]]
            rw [noComS_cons_str c _ h1 h2]
            exact (ihn (d :: rest2) hdr).2.1
      · by_cases h1 : c = '\n'
        · subst h1
          rw [show parseGo ('\n' :: d :: rest2) .singleComment =
              '\n' :: parseGo (d :: rest2) .normal from by rw [parseGo, if_pos rfl]]
          rw [noComS_cons_code _ _ (by decide) (by decide)]
          exact (ihn (d :: rest2) hdr).1
        · rw [show parseGo (c :: d :: rest2) .singleComment =
            parseGo (d :: rest2) .singleComment from by rw [parseGo, if_neg h1]]
          exact (ihn (d :: rest2) hdr).2.2.1
      · by_cases h1 : c = '*' ∧ d = '/'
        · obtain ⟨rfl, rfl⟩ := h1
          rw [show parseGo ('*' :: '/' :: rest2) .multiComment = parseGo rest2 .normal
            from by rw [parseGo]; simp]
          exact (ihn rest2 hr2).1
        · rw [show parseGo (c :: d :: rest2) .multiComment =
            parseGo (d :: rest2) .multiComment from by rw [parseGo, if_neg h1]]
          exact (ihn (d :: rest2) hdr).2.2.2

/-- A comment-free byte sequence is a fixed point of the comment pass. -/
lemma parseGo_id_of_noComS : ∀ (n : Nat) (z : List Char), z.length ≤ n →
    (noComS z false = true → parseGo z .normal = z)
    ∧ (noComS z true = true → parseGo z .strState = z) := by
  intro n
  induction n with
  | zero =>
    intro z hz
    have hnil : z = [] := List.eq_nil_of_length_eq_zero (Nat.le_zero.mp hz)
    subst hnil
    exact ⟨fun _ => rfl, fun _ => rfl⟩
  | succ n ihn =>
    intro z hz
    match z with
    | [] => exact ⟨fun _ => rfl, fun _ => rfl⟩
    | [c] => exact ⟨fun _ => rfl, fun _ => rfl⟩
    | c :: d :: rest2 =>
      have hdr : (d :: rest2).length ≤ n := by
        simp only [List.length_cons] at hz ⊢
        omega
      have hr2 : rest2.length ≤ n := by
        simp only [List.length_cons] at hz
        omega
      constructor
      · intro h
        by_cases h1 : c = '"'
        · subst h1
          rw [noComS_quote_code] at h
          rw [parseGo, if_pos rfl, (ihn (d :: rest2) hdr).2 h]
        · by_cases hc : c = '/'
          · subst hc
            rw [noComS, if_neg (show ¬('/' : Char) = '"' by decide), if_pos rfl] at h
            by_cases hdd : d = '/' ∨ d = '*'
            · rw [if_pos hdd] at h
              cases h
            · rw [if_neg hdd] at h
              have hd1 : d ≠ '/' := fun hh => hdd (Or.inl hh)
              have hd2 : d ≠ '*' := fun hh => hdd (Or.inr hh)
              rw [parseGo, if_neg (show ¬('/' : Char) = '"' by decide),
                if_neg (fun hh => hd1 hh.2), if_neg (fun hh => hd2 hh.2),
                (ihn (d :: rest2) hdr).1 h]
          · rw [noComS_cons_code c _ h1 hc] at h
            rw [parseGo, if_neg h1, if_neg (fun hh => hc hh.1), if_neg (fun hh => hc hh.1),
              (ihn (d :: rest2) hdr).1 h]
      · intro h
        by_cases h1 : c = '\\'
        · subst h1
          rw [noComS, if_pos rfl] at h
          rw [parseGo, if_pos rfl, (ihn rest2 hr2).2 h]
        · by_cases h2 : c = '"'
          · subst h2
            rw [noComS_quote_str] at h
            rw [parseGo, if_neg (show ¬('"' : Char) = '\\' by decide), if_pos rfl,
              (ihn (d :: rest2) hdr).1 h]
          · rw [noComS_cons_str c _ h1 h2] at h
            rw [parseGo, if_neg h1, if_neg h2, (ihn (d :: rest2) hdr).2 h]

/-- After a removable comma the stripped tail begins with whitespace or a
closing bracket, never a comment byte. -/
lemma stripTCGo_head_aux (t : List Char) (ht : isTrailingCommaAux t = true) :
    ∃ h x, stripTCGo t false 0 = h :: x ∧ h ≠ '/' ∧ h ≠ '*' := by
  cases t with
  | nil => exact absurd ht (by decide)
  | cons c r =>
    by_cases hw : isWhitespaceGo c = true
    · have hob : ((c = ' ' ∨ c = '\t') ∨ c = '\n') ∨ c = '\r' := by
        rw [isWhitespaceGo] at hw
        simpa using hw
      have hcc : c ≠ ',' := by rcases hob with ((rfl | rfl) | rfl) | rfl <;> decide
      have hp1 : c ≠ '/' := by rcases hob with ((rfl | rfl) | rfl) | rfl <;> decide
      have hp2 : c ≠ '*' := by rcases hob with ((rfl | rfl) | rfl) | rfl <;> decide
      refine ⟨c, stripTCGo r (stripInString c 0 false) (stripBS c 0), ?_, hp1, hp2⟩
      rw [stripTCGo, if_neg (fun hh => hcc hh.2.1)]
    · rw [isTrailingCommaAux, if_neg hw] at ht
      have hob : c = ']' ∨ c = '}' := by simpa using ht
      have hcc : c ≠ ',' := by rcases hob with rfl | rfl <;> decide
      have hp1 : c ≠ '/' := by rcases hob with rfl | rfl <;> decide
      have hp2 : c ≠ '*' := by rcases hob with rfl | rfl <;> decide
      refine ⟨c, stripTCGo r (stripInString c 0 false) (stripBS c 0), ?_, hp1, hp2⟩
      rw [stripTCGo, if_neg (fun hh => hcc hh.2.1)]

/-- Removing a comma never creates a comment opener: the stripped form of
a sequence with a non-comment head still begins with a non-comment byte. -/
lemma stripTCGo_head_ne (d : Char) (t : List Char) (hd1 : d ≠ '/') (hd2 : d ≠ '*') :
    ∃ h x, stripTCGo (d :: t) false 0 = h :: x ∧ h ≠ '/' ∧ h ≠ '*' := by
  by_cases hrem : ¬ stripInString d 0 false = true ∧ d = ',' ∧ isTrailingCommaAux t = true
  · obtain ⟨hns, hdc, haux⟩ := hrem
    subst hdc
    obtain ⟨h0, x, hx, hp1, hp2⟩ := stripTCGo_head_aux t haux
    refine ⟨h0, x, ?_, hp1, hp2⟩
    rw [stripTCGo, if_pos ⟨hns, rfl, haux⟩,
      show stripInString ',' 0 false = false from by decide,
      show stripBS ',' 0 = 0 from by decide, hx]
  · refine ⟨d, stripTCGo t (stripInString d 0 false) (stripBS d 0), ?_, hd1, hd2⟩
    rw [stripTCGo, if_neg hrem]

/-- Removing trailing commas preserves comment-freeness of backslash-free
input. -/
lemma noComS_stripTCGo : ∀ (z : List Char), '\\' ∉ z →
    (noComS z false = true → noComS (stripTCGo z false 0) false = true)
    ∧ (noComS z true = true → noComS (stripTCGo z true 0) true = true) := by
  intro z
  induction z with
  | nil => exact fun _ => ⟨fun _ => rfl, fun _ => rfl⟩
  | cons c rest ih =>
    intro hb
    have hcb : c ≠ '\\' := fun h => hb (h ▸ List.mem_cons_self _ _)
    have hbrest : '\\' ∉ rest := fun h => hb (List.mem_cons_of_mem _ h)
    have hbs : stripBS c 0 = 0 := by rw [stripBS, if_neg hcb]
    constructor
    · intro h
      by_cases hq : c = '"'
      · subst hq
        have hss : stripInString '"' 0 false = true := by decide
        have hcond : ¬(¬ stripInString '"' 0 false = true ∧ ('"' : Char) = ',' ∧
            isTrailingCommaAux rest = true) := by
          rintro ⟨h1, -, -⟩
          exact h1 hss
        rw [stripTCGo, if_neg hcond, hss, hbs]
        rw [noComS_quote_code]
        rw [noComS_quote_code] at h
        exact (ih hbrest).2 h
      · by_cases hsl : c = '/'
        · subst hsl
          cases rest with
          | nil =>
            rw [show stripTCGo ['/'] false 0 = ['/'] from by decide]
            rfl
          | cons d t =>
            rw [noComS, if_neg (show ¬('/' : Char) = '"' by decide), if_pos rfl] at h
            by_cases hdd : d = '/' ∨ d = '*'
            · rw [if_pos hdd] at h
              cases h
            · rw [if_neg hdd] at h
              have hd1 : d ≠ '/' := fun hh => hdd (Or.inl hh)
              have hd2 : d ≠ '*' := fun hh => hdd (Or.inr hh)
              have hcond : ¬(¬ stripInString '/' 0 false = true ∧ ('/' : Char) = ',' ∧
                  isTrailingCommaAux (d :: t) = true) := by
                rintro ⟨-, h2, -⟩
                exact absurd h2 (by decide)
              rw [stripTCGo, if_neg hcond,
                show stripInString '/' 0 false = false from by decide, hbs]
              obtain ⟨h0, x, hx, hp1, hp2⟩ := stripTCGo_head_ne d t hd1 hd2
              rw [hx]
              rw [show noComS ('/' :: h0 :: x) false = noComS (h0 :: x) false from by
                rw [noComS, if_neg (show ¬('/' : Char) = '"' by decide), if_pos rfl,
                  if_neg (fun hh => hh.elim hp1 hp2)]]
              rw [← hx]
              exact (ih hbrest).1 h
        · rw [noComS_cons_code c rest hq hsl] at h
          have hss : stripInString c 0 false = false := by
            rw [stripInString, if_neg (fun hh => hq hh.1)]
          by_cases hrem : ¬ stripInString c 0 false = true ∧ c = ',' ∧
              isTrailingCommaAux rest = true
          · rw [stripTCGo, if_pos hrem, hss, hbs]
            exact (ih hbrest).1 h
          · rw [stripTCGo, if_neg hrem, hss, hbs]
            rw [noComS_cons_code c _ hq hsl]
            exact (ih hbrest).1 h
    · intro h
      by_cases hq : c = '"'
      · subst hq
        have hcond : ¬(¬ stripInString '"' 0 true = true ∧ ('"' : Char) = ',' ∧
            isTrailingCommaAux rest = true) := by
          rintro ⟨-, h2, -⟩
          exact absurd h2 (by decide)
        rw [stripTCGo, if_neg hcond,
          show stripInString '"' 0 true = false from by decide, hbs]
        rw [noComS_quote_str]
        rw [noComS_quote_str] at h
        exact (ih hbrest).1 h
      · have hss : stripInString c 0 true = true := by
          rw [stripInString, if_neg (fun hh => hq hh.1)]
        have hcond : ¬(¬ stripInString c 0 true = true ∧ c = ',' ∧
            isTrailingCommaAux rest = true) := by
          rintro ⟨h1, -, -⟩
          exact h1 hss
        rw [stripTCGo, if_neg hcond, hss, hbs]
        rw [noComS_cons_str c _ hcb hq]
        rw [noComS_cons_str c _ hcb hq] at h
        exact (ih hbrest).2 h

/-- The comment-stripping pass preserves the string literals, from any
state of the automaton. -/
lemma regions_parseGo : ∀ (n : Nat) (x : List Char), x.length ≤ n →
    (∀ acc, stringRegions (parseGo x .normal) .normal acc = stringRegions x .normal acc)
    ∧ (∀ acc, stringRegions (parseGo x .strState) .strState acc =
        stringRegions x .strState acc)
    ∧ (∀ acc, stringRegions (parseGo x .singleComment) .normal acc =
        stringRegions x .singleComment acc)
    ∧ (∀ acc, stringRegions (parseGo x .multiComment) .normal acc =
        stringRegions x .multiComment acc) := by
  intro n
  induction n with
  | zero =>
    intro x hx
    have hnil : x = [] := List.eq_nil_of_length_eq_zero (Nat.le_zero.mp hx)
    subst hnil
    exact ⟨fun _ => rfl, fun _ => rfl, fun _ => rfl, fun _ => rfl⟩
  | succ n ihn =>
    intro x hx
    match x with
    | [] => exact ⟨fun _ => rfl, fun _ => rfl, fun _ => rfl, fun _ => rfl⟩
    | [c] =>
      refine ⟨fun _ => rfl, fun _ => rfl, fun acc => ?_, fun _ => rfl⟩
      by_cases h : c = '\n'
      · subst h; rfl
      · rw [show parseGo [c] .singleComment = [] from by rw [parseGo, if_neg h],
          show stringRegions [c] .singleComment acc = [] from rfl]
        rfl
    | c :: d :: rest2 =>
      have hdr : (d :: rest2).length ≤ n := by
        simp only [List.length_cons] at hx ⊢
        omega
      have hr2 : rest2.length ≤ n := by
        simp only [List.length_cons] at hx
        omega
      refine ⟨fun acc => ?_, fun acc => ?_, fun acc => ?_, fun acc => ?_⟩
      · by_cases h1 : c = '"'
        · subst h1
          rw [show parseGo ('"' :: d :: rest2) .normal =
              '"' :: parseGo (d :: rest2) .strState from by rw [parseGo, if_pos rfl]]
          rw [stringRegions_normal_cons _ _ _ (by decide), if_pos rfl]
          rw [stringRegions_normal_cons _ _ _ (by decide), if_pos rfl]
          exact ((ihn (d :: rest2) hdr).2.1 [])
        · by_cases h2 : c = '/' ∧ d = '/'
          · obtain ⟨rfl, rfl⟩ := h2
            rw [show parseGo ('/' :: '/' :: rest2) .normal = parseGo rest2 .singleComment
              from by rw [parseGo]; simp]
            rw [show stringRegions ('/' :: '/' :: rest2) .normal acc =
                stringRegions rest2 .singleComment acc from by rw [stringRegions]; simp]
            exact ((ihn rest2 hr2).2.2.1 acc)
          · by_cases h3 : c = '/' ∧ d = '*'
            · obtain ⟨rfl, rfl⟩ := h3
              rw [show parseGo ('/' :: '*' :: rest2) .normal = parseGo rest2 .multiComment
                from by rw [parseGo]; simp]
              rw [show stringRegions ('/' :: '*' :: rest2) .normal acc =
                  stringRegions rest2 .multiComment acc from by rw [stringRegions]; simp]
              exact ((ihn rest2 hr2).2.2.2 acc)
            · rw [show parseGo (c :: d :: rest2) .normal = c :: parseGo (d :: rest2) .normal
                from by rw [parseGo, if_neg h1, if_neg h2, if_neg h3]]
              by_cases hc : c = '/'
              · subst hc
                have hd : d ≠ '/' := fun h => h2 ⟨rfl, h⟩
                have hdstar : d ≠ '*' := fun h => h3 ⟨rfl, h⟩
                obtain ⟨t, ht⟩ := parseGo_normal_head d rest2 hd
                rw [ht]
                rw [show stringRegions ('/' :: d :: t) .normal acc =
                    stringRegions (d :: t) .normal acc from by
                  rw [stringRegions, if_neg (show ¬('/' : Char) = '"' by decide),
                    if_neg (fun h => hd h.2), if_neg (fun h => hdstar h.2)]]
                rw [show stringRegions ('/' :: d :: rest2) .normal acc =
                    stringRegions (d :: rest2) .normal acc from by
                  rw [stringRegions, if_neg (show ¬('/' : Char) = '"' by decide),
                    if_neg (fun h => hd h.2), if_neg (fun h => hdstar h.2)]]
                have hih := (ihn (d :: rest2) hdr).1 acc
                rw [ht] at hih
                exact hih
              · rw [stringRegions_normal_cons c _ acc hc, if_neg h1]
                rw [stringRegions_normal_cons c _ acc hc, if_neg h1]
                exact ((ihn (d :: rest2) hdr).1 acc)
      · by_cases h1 : c = '\\'
        · subst h1
          rw [show parseGo ('\\' :: d :: rest2) .strState =
              '\\' :: d :: parseGo rest2 .strState from by rw [parseGo, if_pos rfl]]
          rw [show ∀ t, stringRegions ('\\' :: d :: t) .strState acc =
              stringRegions t .strState (d :: '\\' :: acc) from fun t => by
            rw [stringRegions, if_pos rfl]]
          rw [show stringRegions ('\\' :: d :: rest2) .strState acc =
              stringRegions rest2 .strState (d :: '\\' :: acc) from by
            rw [stringRegions, if_pos rfl]]
          exact ((ihn rest2 hr2).2.1 _)
        · by_cases h2 : c = '"'
          · subst h2
            rw [show parseGo ('"' :: d :: rest2) .strState =
                '"' :: parseGo (d :: rest2) .normal from by
              rw [parseGo, if_neg (show ¬('"' : Char) = '\\' by decide), if_pos rfl]]
            rw [stringRegions_str_cons _ _ _ (by decide), if_pos rfl]
            rw [stringRegions_str_cons _ _ _ (by decide), if_pos rfl]
            rw [(ihn (d :: rest2) hdr).1 []]
          · rw [show parseGo (c :: d :: rest2) .strState = c :: parseGo (d :: rest2) .strState
              from by rw [parseGo, if_neg h1, if_neg h2]]
            rw [stringRegions_str_cons c _ acc h1, if_neg h2]
            rw [stringRegions_str_cons c _ acc h1, if_neg h2]
            exact ((ihn (d :: rest2) hdr).2.1 _)
      · by_cases h1 : c = '\n'
        · subst h1
          rw [show parseGo ('\n' :: d :: rest2) .singleComment =
              '\n' :: parseGo (d :: rest2) .normal from by rw [parseGo, if_pos rfl]]
          rw [stringRegions_normal_cons _ _ _ (by decide),
            if_neg (show ¬('\n' : Char) = '"' by decide)]
          rw [show stringRegions ('\n' :: d :: rest2) .singleComment acc =
              stringRegions (d :: rest2) .normal acc from by rw [stringRegions, if_pos rfl]]
          exact ((ihn (d :: rest2) hdr).1 acc)
        · rw [show parseGo (c :: d :: rest2) .singleComment =
            parseGo (d :: rest2) .singleComment from by rw [parseGo, if_neg h1]]
          rw [show stringRegions (c :: d :: rest2) .singleComment acc =
              stringRegions (d :: rest2) .singleComment acc from by
            rw [stringRegions, if_neg h1]]
          exact ((ihn (d :: rest2) hdr).2.2.1 acc)
      · by_cases h1 : c = '*' ∧ d = '/'
        · obtain ⟨rfl, rfl⟩ := h1
          rw [show parseGo ('*' :: '/' :: rest2) .multiComment = parseGo rest2 .normal
            from by rw [parseGo]; simp]
          rw [show stringRegions ('*' :: '/' :: rest2) .multiComment acc =
              stringRegions rest2 .normal acc from by rw [stringRegions]; simp]
          exact ((ihn rest2 hr2).1 acc)
        · rw [show parseGo (c :: d :: rest2) .multiComment =
            parseGo (d :: rest2) .multiComment from by rw [parseGo, if_neg h1]]
          rw [show stringRegions (c :: d :: rest2) .multiComment acc =
              stringRegions (d :: rest2) .multiComment acc from by
            rw [stringRegions, if_neg h1]]
          exact ((ihn (d :: rest2) hdr).2.2.2 acc)

/-- The trailing-comma pass preserves the string literals of comment-free,
backslash-free input. -/
lemma regions_stripTC : ∀ (z : List Char), '\\' ∉ z →
    (∀ acc, noComS z false = true →
      stringRegions (stripTCGo z false 0) .normal acc = stringRegions z .normal acc)
    ∧ (∀ acc, noComS z true = true →
      stringRegions (stripTCGo z true 0) .strState acc =
        stringRegions z .strState acc) := by
  intro z
  induction z with
  | nil => exact fun _ => ⟨fun _ _ => rfl, fun _ _ => rfl⟩
  | cons c rest ih =>
    intro hb
    have hcb : c ≠ '\\' := fun h => hb (h ▸ List.mem_cons_self _ _)
    have hbrest : '\\' ∉ rest := fun h => hb (List.mem_cons_of_mem _ h)
    have hbs : stripBS c 0 = 0 := by rw [stripBS, if_neg hcb]
    constructor
    · intro acc h
      by_cases hq : c = '"'
      · subst hq
        have hss : stripInString '"' 0 false = true := by decide
        have hcond : ¬(¬ stripInString '"' 0 false = true ∧ ('"' : Char) = ',' ∧
            isTrailingCommaAux rest = true) := by
          rintro ⟨h1, -, -⟩
          exact h1 hss
        rw [stripTCGo, if_neg hcond, hss, hbs]
        rw [noComS_quote_code] at h
        rw [stringRegions_normal_cons _ _ _ (by decide), if_pos rfl]
        rw [stringRegions_normal_cons _ _ _ (by decide), if_pos rfl]
        exact (ih hbrest).2 [] h
      · by_cases hsl : c = '/'
        · subst hsl
          cases rest with
          | nil =>
            rw [show stripTCGo ['/'] false 0 = ['/'] from by decide]
          | cons d t =>
            rw [noComS, if_neg (show ¬('/' : Char) = '"' by decide), if_pos rfl] at h
            by_cases hdd : d = '/' ∨ d = '*'
            · rw [if_pos hdd] at h
              cases h
            · rw [if_neg hdd] at h
              have hd1 : d ≠ '/' := fun hh => hdd (Or.inl hh)
              have hd2 : d ≠ '*' := fun hh => hdd (Or.inr hh)
              have hcond : ¬(¬ stripInString '/' 0 false = true ∧ ('/' : Char) = ',' ∧
                  isTrailingCommaAux (d :: t) = true) := by
                rintro ⟨-, h2, -⟩
                exact absurd h2 (by decide)
              rw [stripTCGo, if_neg hcond,
                show stripInString '/' 0 false = false from by decide, hbs]
              obtain ⟨h0, x, hx, hp1, hp2⟩ := stripTCGo_head_ne d t hd1 hd2
              rw [hx]
              rw [show stringRegions ('/' :: h0 :: x) .normal acc =
                  stringRegions (h0 :: x) .normal acc from by
                rw [stringRegions, if_neg (show ¬('/' : Char) = '"' by decide),
                  if_neg (fun hh => hp1 hh.2), if_neg (fun hh => hp2 hh.2)]]
              rw [← hx]
              rw [show stringRegions ('/' :: d :: t) .normal acc =
                  stringRegions (d :: t) .normal acc from by
                rw [stringRegions, if_neg (show ¬('/' : Char) = '"' by decide),
                  if_neg (fun hh => hd1 hh.2), if_neg (fun hh => hd2 hh.2)]]
              exact (ih hbrest).1 acc h
        · rw [noComS_cons_code c rest hq hsl] at h
          have hss : stripInString c 0 false = false := by
            rw [stripInString, if_neg (fun hh => hq hh.1)]
          by_cases hrem : ¬ stripInString c 0 false = true ∧ c = ',' ∧
              isTrailingCommaAux rest = true
          · rw [stripTCGo, if_pos hrem, hss, hbs]
            rw [stringRegions_normal_cons c _ acc hsl, if_neg hq]
            exact (ih hbrest).1 acc h
          · rw [stripTCGo, if_neg hrem, hss, hbs]
            rw [stringRegions_normal_cons c _ acc hsl, if_neg hq]
            rw [stringRegions_normal_cons c _ acc hsl, if_neg hq]
            exact (ih hbrest).1 acc h
    · intro acc h
      by_cases hq : c = '"'
      · subst hq
        have hcond : ¬(¬ stripInString '"' 0 true = true ∧ ('"' : Char) = ',' ∧
            isTrailingCommaAux rest = true) := by
          rintro ⟨-, h2, -⟩
          exact absurd h2 (by decide)
        rw [stripTCGo, if_neg hcond,
          show stripInString '"' 0 true = false from by decide, hbs]
        rw [noComS_quote_str] at h
        rw [stringRegions_str_cons _ _ _ (by decide), if_pos rfl]
        rw [stringRegions_str_cons _ _ _ (by decide), if_pos rfl]
        rw [(ih hbrest).1 [] h]
      · have hss : stripInString c 0 true = true := by
          rw [stripInString, if_neg (fun hh => hq hh.1)]
        have hcond : ¬(¬ stripInString c 0 true = true ∧ c = ',' ∧
            isTrailingCommaAux rest = true) := by
          rintro ⟨h1, -, -⟩
          exact h1 hss
        rw [stripTCGo, if_neg hcond, hss, hbs]
        rw [noComS_cons_str c _ hcb hq] at h
        rw [stringRegions_str_cons c _ acc hcb, if_neg hq]
        rw [stringRegions_str_cons c _ acc hcb, if_neg hq]
        exact (ih hbrest).2 (c :: acc) h

/-- C8 (amended): the comment-stripping pass alone is idempotent for every
input; and whenever the comment-stripped form contains no backslash and no
comma separated only by whitespace from a following comma, the full
`StripComments` is idempotent and preserves every string literal of the
input byte-for-byte.  Slashes need no restriction — inside or outside
string literals — because removing a trailing comma never creates a
comment opener (the next non-whitespace byte is a closing bracket).
Without the two restrictions both parts fail (see the counterexample:
cascading trailing commas break idempotence, and a backslash before an
opening quote desynchronises the two passes' string tracking, deleting a
comma from inside a literal). -/
theorem claim_C8_jsonc_stripper (b : List Char) :
    parseGo (parseGo b .normal) .normal = parseGo b .normal
    ∧ ('\\' ∉ parseGo b .normal →
        commaCascade (parseGo b .normal) = false →
        StripComments (StripComments b) = StripComments b
        ∧ strLits (StripComments b) = strLits b) := by
  refine ⟨(parseGo_idem b.length b le_rfl).1, fun h2 h3 => ⟨?_, ?_⟩⟩
  · have hnc : noComS (parseGo b .normal) false = true :=
      (noComS_parseGo b.length b le_rfl).1
    have hncs : noComS (stripTCGo (parseGo b .normal) false 0) false = true :=
      (noComS_stripTCGo (parseGo b .normal) h2).1 hnc
    have hid : parseGo (stripTCGo (parseGo b .normal) false 0) .normal =
        stripTCGo (parseGo b .normal) false 0 :=
      (parseGo_id_of_noComS (stripTCGo (parseGo b .normal) false 0).length _ le_rfl).1 hncs
    calc StripComments (StripComments b)
        = stripTCGo (parseGo (stripTCGo (parseGo b .normal) false 0) .normal) false 0 := rfl
      _ = stripTCGo (stripTCGo (parseGo b .normal) false 0) false 0 := by rw [hid]
      _ = stripTCGo (parseGo b .normal) false 0 := stripTCGo_idem _ false h2 h3
      _ = StripComments b := rfl
  · have hnc : noComS (parseGo b .normal) false = true :=
      (noComS_parseGo b.length b le_rfl).1
    calc strLits (StripComments b)
        = stringRegions (stripTCGo (parseGo b .normal) false 0) .normal [] := rfl
      _ = stringRegions (parseGo b .normal) .normal [] :=
        (regions_stripTC (parseGo b .normal) h2).1 [] hnc
      _ = stringRegions b .normal [] := (regions_parseGo b.length b le_rfl).1 []
      _ = strLits b := rfl

/-- A concrete JSONC document with a slash inside a string literal, a
block comment and one trailing comma, as a character list. -/
def c8wit : List Char :=
  ['{', '"', 'a', '/', 'b', '"', ':', ' ', '[', '1', ',', ' ', '2', ',', ']', ' ',
   '/', '*', ' ', 'x', ' ', '*', '/', ' ', '}']

/-- Witness for C8 at a concrete JSONC document with a comment and one
trailing comma. -/
theorem claim_C8_jsonc_stripper_witness :
    parseGo (parseGo c8wit .normal) .normal = parseGo c8wit .normal
    ∧ StripComments (StripComments c8wit) = StripComments c8wit
    ∧ strLits (StripComments c8wit) = strLits c8wit :=
  ⟨(claim_C8_jsonc_stripper c8wit).1,
   ((claim_C8_jsonc_stripper c8wit).2 (by decide) (by decide)).1,
   ((claim_C8_jsonc_stripper c8wit).2 (by decide) (by decide)).2⟩

end SupplyScan
